import Mathlib

/-!
Verification of the GCache ring-buffer storage engine of the Galera
replication library (`gcache/src/gcache_rb_store.cpp`) and its encrypted
mmap layer (`galerautils/src/gu_enc_mmap.cpp`), as a shallow embedding.

Byte offsets are taken relative to `start_` (so `start_ = 0` and
`end_ = size_cache + sizeof(BufferHeader)`, matching
`size_cache_ = end_ - start_ - sizeof(BufferHeader)` in the constructor).
Machine integers (`size_t`) are modelled as `Nat`, with theorems carrying
the assertions of the source as hypotheses so that truncated subtraction
never diverges from the machine semantics on the states considered.
-/

namespace gcache

/-- Sentinel `SEQNO_NONE = 0` (buffer allocated but not yet ordered). -/
def SEQNO_NONE : Int := 0

/-- Sentinel `SEQNO_ILL = -1` (buffer emptied / discarded). -/
def SEQNO_ILL : Int := -1

/-- Flag bit `BUFFER_RELEASED` (bit 0 of the header `flags` field). -/
def BUFFER_RELEASED : Nat := 1

/-- Size of `BufferHeader` in bytes (fixed layout, spec section 6:
`size` u32, `flags` u32, `seqno_g` i64, `store` u8 + reserved, `ctx` u64). -/
def bhSize : Nat := 32

/-- Store tags: `BUFFER_IN_RB = 0`, `BUFFER_IN_MEM = 1`, `BUFFER_IN_PAGE = 2`. -/
def BUFFER_IN_RB : Nat := 0

def BUFFER_IN_MEM : Nat := 1

def BUFFER_IN_PAGE : Nat := 2

/-- The `ctx` value denoting "this RingBuffer" (`BH_ctx_t(this)`): the model
has a single ring buffer, so one distinguished tag suffices. Buffers of other
stores carry a different `ctx`. -/
def rbCtx : Nat := 0

/-- Buffer header, the fixed in-band record preceding every payload
(`gcache_rb_store.cpp` writes `{size, seqno_g, flags, store, ctx}` in
`get_new_buffer`). -/
structure BufferHeader where
  size : Nat
  seqno_g : Int
  flags : Nat
  store : Nat
  ctx : Nat
  deriving DecidableEq, Repr

namespace BufferHeader

/-- Modelled from the spec: `BH_clear` (declared in `gcache_rb_store.hpp`,
not in src/) zeroes the whole header; "A 'clear' header is an all-zero
header" (spec section 6). -/
def clear : BufferHeader := ⟨0, 0, 0, 0, 0⟩

/-- Modelled from the spec: `BH_is_clear` (header in `gcache_rb_store.hpp`,
not in src/): "A header with `size==0` is a clear marker" (spec section 3);
the scan loop of the .cpp likewise distinguishes clear headers by
`bh->size > 0`. -/
def isClear (bh : BufferHeader) : Bool := bh.size == 0

/-- Modelled from the spec: `BH_is_released` (header not in src/): flag bit
`RELEASED` is bit 0 of `flags` (spec section 6: "flags (u32, bit0=RELEASED)"). -/
def isReleased (bh : BufferHeader) : Bool := bh.flags &&& BUFFER_RELEASED != 0

/-- Modelled from the spec: `BH_release` (header not in src/) sets the
RELEASED bit, as the scan loop does with `bh->flags |= BUFFER_RELEASED`. -/
def release (bh : BufferHeader) : BufferHeader :=
  { bh with flags := bh.flags ||| BUFFER_RELEASED }

end BufferHeader

/-- The `empty_buffer` helper of `gcache_rb_store.cpp` (lines 177-181):
mark a buffer as empty by setting `seqno_g := SEQNO_ILL`. -/
def empty_buffer (bh : BufferHeader) : BufferHeader :=
  { bh with seqno_g := SEQNO_ILL }

/-- The `buffer_is_empty` helper of `gcache_rb_store.cpp` (lines 183-187). -/
def buffer_is_empty (bh : BufferHeader) : Bool := bh.seqno_g == SEQNO_ILL

/-- Memory of the ring body: the buffer header stored at each byte offset
from `start_`. Only offsets where a header was actually written are
meaningful; payload bytes are opaque and not modelled. -/
def Mem : Type := Nat → BufferHeader

/-- Write a header at an offset. -/
def writeBH (m : Mem) (off : Nat) (bh : BufferHeader) : Mem :=
  fun o => if o = off then bh else m o

/-! ### The seqno-to-pointer index

Modelled from the spec: the index type `seqno2ptr_t` is `gu::deqmap`
(galerautils header, not in src/). Spec section 4.F / section 3: "a
deque-like structure indexed by seqno, dense between `index_front()` and
`index_back()` (holes allowed, represented by a null value)"; erasing at an
edge pops the edge together with adjacent holes, so the first and last
entries are never null. `insert(s, p)` requires empty or `s > index_back()`.
Values are payload offsets (`ptr`); `ptr2BH` subtracts `bhSize`. -/

structure SeqnoIndex where
  base : Int
  entries : List (Option Nat)
  deriving DecidableEq, Repr

namespace SeqnoIndex

def empty : SeqnoIndex := ⟨0, []⟩

def isEmpty (ix : SeqnoIndex) : Bool := ix.entries.isEmpty

/-- Index of the first element (`index_front`, also `index_begin`). -/
def index_front (ix : SeqnoIndex) : Int := ix.base

/-- One past the last index (`index_end`). -/
def index_end (ix : SeqnoIndex) : Int := ix.base + ix.entries.length

/-- Index of the last element (`index_back`). -/
def index_back (ix : SeqnoIndex) : Int := ix.base + ix.entries.length - 1

/-- Lookup (`operator[]` of the deqmap); null outside the range. -/
def get (ix : SeqnoIndex) (s : Int) : Option Nat :=
  if ix.base ≤ s then (ix.entries[(s - ix.base).toNat]?).getD none else none

/-- Value of the last element (`back()`). -/
def back (ix : SeqnoIndex) (default : Nat := 0) : Nat :=
  (ix.entries.getLast?.getD none).getD default

def trimFront (ix : SeqnoIndex) : SeqnoIndex :=
  let k := (ix.entries.takeWhile fun e => e.isNone).length
  ⟨ix.base + k, ix.entries.drop k⟩

def trimBack (ix : SeqnoIndex) : SeqnoIndex :=
  ⟨ix.base, (ix.entries.reverse.dropWhile fun e => e.isNone).reverse⟩

/-- Insert; the callers guarantee "empty or `s > index_back()`" (spec 4.F);
for totality an in-range insert sets the slot and a below-front insert
extends at the front, as a deque map would. -/
def insert (ix : SeqnoIndex) (s : Int) (p : Nat) : SeqnoIndex :=
  if ix.entries.isEmpty then ⟨s, [some p]⟩
  else if ix.index_end ≤ s then
    ⟨ix.base, ix.entries ++ List.replicate (s - ix.index_end).toNat none ++ [some p]⟩
  else if ix.base ≤ s then
    ⟨ix.base, ix.entries.set (s - ix.base).toNat (some p)⟩
  else
    ⟨s, some p :: List.replicate (ix.base - s - 1).toNat none ++ ix.entries⟩

/-- Erase the entry at `s` (`erase(iterator)`), trimming holes at both
edges as the deqmap does. -/
def eraseAt (ix : SeqnoIndex) (s : Int) : SeqnoIndex :=
  if ix.base ≤ s ∧ s < ix.index_end then
    trimBack (trimFront ⟨ix.base, ix.entries.set (s - ix.base).toNat none⟩)
  else ix

/-- Erase the range `[begin, find(s))`: drop every entry below `s`
(`seqno2ptr_.erase(seqno2ptr_.begin(), seqno2ptr_.find(seqno_min))` in
`recover`). -/
def eraseBelow (ix : SeqnoIndex) (s : Int) : SeqnoIndex :=
  if ix.base ≤ s then ⟨s, ix.entries.drop (s - ix.base).toNat⟩ else ix

/-- Drop all contents and restart at the given base (`clear(base)`). -/
def clear (ix : SeqnoIndex) (b : Int) : SeqnoIndex :=
  ⟨b, []⟩

/-- Null every entry satisfying the predicate, then trim the edges; this is
the cumulative effect of iterating with `erase(i)` on selected entries, as
`RingBuffer::reset` does. -/
def eraseWhere (ix : SeqnoIndex) (pred : Nat → Bool) : SeqnoIndex :=
  trimBack (trimFront
    ⟨ix.base, ix.entries.map fun e =>
      match e with
      | some p => if pred p then none else some p
      | none => none⟩)

/-- Non-null entries with index at most `s`, in increasing index order,
paired with their indices: the sequence of elements the iterator of
`discard_seqnos` visits when called on `[begin, find(s+1))` (the loop skips
holes with `do { ++i } while (i != i_end && !*i)`). -/
def itemsUpTo (ix : SeqnoIndex) (s : Int) : List (Int × Nat) :=
  (List.range ix.entries.length).filterMap fun (i : Nat) =>
    if (ix.base + i) ≤ s then
      ((ix.entries[i]?).getD none).map fun p => (ix.base + i, p)
    else none

/-- All non-null entries with their indices, in increasing order. -/
def items (ix : SeqnoIndex) : List (Int × Nat) :=
  ix.itemsUpTo ix.index_end

end SeqnoIndex

/-! ### RingBuffer state -/

/-- The state of a `RingBuffer`: pointers are byte offsets from `start_`.
`freeze_purge_at_seqno` is the PXC purge freeze mark (default `SEQNO_ILL`). -/
structure RB where
  mem : Mem
  first : Nat
  next : Nat
  size_cache : Nat
  size_free : Nat
  size_used : Nat
  size_trail : Nat
  seqno2ptr : SeqnoIndex
  freeze_purge_at_seqno : Int

namespace RB

/-- Offset of `end_` from `start_`: the constructor sets
`size_cache_ = end_ - start_ - sizeof(BufferHeader)`. -/
def endOff (st : RB) : Nat := st.size_cache + bhSize

/-- Modelled from the spec: `skip_purge` (PXC, `gcache_rb_store.hpp`, not in
src/): purging is frozen from `freeze_purge_at_seqno_` onwards; with the
default `SEQNO_ILL` nothing is skipped. -/
def skip_purge (st : RB) (s : Int) : Bool :=
  st.freeze_purge_at_seqno != SEQNO_ILL && s ≥ st.freeze_purge_at_seqno

/-- Modelled from the spec: `RingBuffer::discard` (`gcache_rb_store.hpp`,
not in src/): reclaim a released buffer's space — empty it and credit its
bytes back to `size_free_`. This matches the spec's eviction step and the
assertion `SEQNO_ILL == bh->seqno_g` placed right after a successful
`discard_seqno` in `get_new_buffer`, and the comment
"size_free_ is taken care of in discard()" in `recover`. -/
def discard (st : RB) (off : Nat) : RB :=
  let bh := st.mem off
  { st with mem := writeBH st.mem off (empty_buffer bh),
            size_free := st.size_free + bh.size }

/-- Modelled from the spec: discarding a MEM/PAGE-store entry dispatches to
that store ("MEM/PAGE entries are simply detached from their store",
spec section 4.E); no RingBuffer accounting is touched. -/
def storeDetach (st : RB) (off : Nat) : RB :=
  { st with mem := writeBH st.mem off (empty_buffer (st.mem off)) }

/-- Loop body of `RingBuffer::discard_seqnos` (`gcache_rb_store.cpp` lines
189-243) over the sequence of non-null entries the iterator visits: check
`skip_purge`, then erase and discard released entries, stopping with
`false` at the first unreleased one. -/
def discardSeqnosGo : RB → List (Int × Nat) → Bool × RB
  | st, [] => (true, st)
  | st, (s, p) :: rest =>
    if st.skip_purge s then (false, st)
    else
      let bh := st.mem (p - bhSize)
      if bh.isReleased then
        let st1 := { st with seqno2ptr := st.seqno2ptr.eraseAt s }
        let st2 :=
          if bh.store = BUFFER_IN_RB then st1.discard (p - bhSize)
          else st1.storeDetach (p - bhSize)
        discardSeqnosGo st2 rest
      else (false, st)

/-- Modelled from the spec: `RingBuffer::discard_seqno(seqno)`
(`gcache_rb_store.hpp`, not in src/) runs `discard_seqnos` over
`[index_front(), seqno]` ("Discards every seqno in `[index_front(), s]` in
order", spec section 4.E). -/
def discard_seqno (st : RB) (s : Int) : Bool × RB :=
  discardSeqnosGo st (st.seqno2ptr.itemsUpTo s)

/-- Modelled from the spec: `RingBuffer::seqno_release(seqno)`
(`gcache_rb_store.hpp`, not in src/): discard every seqno up to and
including `s`, stopping early at the first unreleased buffer. -/
def seqno_release (st : RB) (s : Int) : RB :=
  (st.discard_seqno s).2

/-- The `found_space` tail of `get_new_buffer` (lines 341-371): account the
size, write the new header `{size, SEQNO_NONE, 0, BUFFER_IN_RB, this}`,
advance `next_` and write a clear header there. -/
def foundSpace (st : RB) (ret size : Nat) : Nat × RB :=
  let bh : BufferHeader := ⟨size, SEQNO_NONE, 0, BUFFER_IN_RB, rbCtx⟩
  let next' := ret + size
  (ret, { st with
            mem := writeBH (writeBH st.mem ret bh) next' BufferHeader.clear,
            next := next',
            size_used := st.size_used + size,
            size_free := st.size_free - size })

/-- The space-search loop of `get_new_buffer` (lines 280-324), fuelled:
`none` means the fuel ran out (the source loop can only diverge on corrupt
memory). On failure the partially advanced state is kept, with
`size_trail_` reverted when `next_ >= first_`, exactly as lines 287-291. -/
def gnbLoop : Nat → RB → Nat → Nat → Nat → Option (Option Nat × RB)
  | 0, _, _, _, _ => none
  | fuel + 1, st, ret, size, size_next =>
    if st.first - ret < size_next then
      let bh := st.mem st.first
      let fail : RB → Option (Option Nat × RB) := fun s =>
        some (none, if s.next ≥ s.first then { s with size_trail := 0 } else s)
      if ¬ bh.isReleased then fail st
      else if bh.seqno_g > 0 ∧ ¬ (st.discard_seqno bh.seqno_g).1 then
        fail (st.discard_seqno bh.seqno_g).2
      else
        let st1 := if bh.seqno_g > 0 then (st.discard_seqno bh.seqno_g).2 else st
        let st2 := { st1 with first := st1.first + bh.size }
        if (st2.mem st2.first).size = 0 then
          let st3 := { st2 with first := 0 }
          if st3.endOff - ret ≥ size_next then
            some ((fun r => (some r.1, r.2)) (foundSpace { st3 with size_trail := 0 } ret size))
          else
            gnbLoop fuel { st3 with size_trail := st3.endOff - ret } 0 size size_next
        else
          gnbLoop fuel st2 ret size size_next
    else
      some ((fun r => (some r.1, r.2)) (st.foundSpace ret size))

/-- `RingBuffer::get_new_buffer` (lines 245-372): returns the offset of the
new buffer header, or `none` when no space can be reclaimed. -/
def get_new_buffer (fuel : Nat) (st : RB) (size : Nat) : Option (Option Nat × RB) :=
  let size_next := size + bhSize
  let ret := st.next
  if ret ≥ st.first then
    let end_size := st.endOff - ret
    if end_size ≥ size_next then
      some ((fun r => (some r.1, r.2)) (st.foundSpace ret size))
    else
      gnbLoop fuel { st with size_trail := end_size } 0 size size_next
  else
    gnbLoop fuel st ret size size_next

/-- `RingBuffer::malloc` (lines 374-396): allocate only when the size is at
most half the cache and fits the unused space; returns the payload offset
(header offset + `bhSize`). -/
def malloc (fuel : Nat) (st : RB) (size : Nat) : Option (Option Nat × RB) :=
  if size ≤ st.size_cache / 2 ∧ size ≤ st.size_cache - st.size_used then
    (st.get_new_buffer fuel size).map fun r => (r.1.map (· + bhSize), r.2)
  else
    some (none, st)

/-- `RingBuffer::free` (lines 398-411): decrement `size_used_`; if the
buffer is unordered (`SEQNO_NONE`), empty and discard it in place. The
RELEASED flag is asserted, not set, by this function. -/
def free (st : RB) (off : Nat) : RB :=
  let bh := st.mem off
  let st1 := { st with size_used := st.size_used - bh.size }
  if bh.seqno_g = SEQNO_NONE then
    ({ st1 with mem := writeBH st1.mem off (empty_buffer bh) }).discard off
  else st1

/-- Caller-side release (`GCache::free_common`, modelled from the spec's
lifecycle "transition to RELEASED on release_buffer"): set the RELEASED
flag, then hand the buffer to `RingBuffer::free`. -/
def releaseBuffer (st : RB) (off : Nat) : RB :=
  ({ st with mem := writeBH st.mem off (st.mem off).release }).free off

/-- Caller-side seqno assignment (modelled from the spec, section 4.E
`assign_seqno`): set the header's `seqno_g` and insert the payload offset
into the index. Preconditions (spec): the buffer was allocated here and the
index is empty or `s > index_back()`. -/
def seqno_assign (st : RB) (p : Nat) (s : Int) : RB :=
  { st with
      mem := writeBH st.mem (p - bhSize) { st.mem (p - bhSize) with seqno_g := s },
      seqno2ptr := st.seqno2ptr.insert s p }

/-- `RingBuffer::reset` (lines 42-82): erase this ring's entries from the
index, rewind the pointers (`BH_clear` at the new `next_ = start_`), restore
the counters and zero the whole cache body. -/
def reset (st : RB) : RB :=
  { st with
      mem := fun o =>
        if o < st.size_cache then BufferHeader.clear
        else writeBH st.mem 0 BufferHeader.clear o,
      first := 0,
      next := 0,
      size_free := st.size_cache,
      size_used := 0,
      size_trail := 0,
      seqno2ptr := st.seqno2ptr.eraseWhere fun p => (st.mem (p - bhSize)).ctx == rbCtx }

/-- A freshly constructed and fully reset ring of the given cache size. -/
def fresh (c : Nat) : RB :=
  { mem := fun _ => BufferHeader.clear,
    first := 0, next := 0,
    size_cache := c, size_free := c, size_used := 0, size_trail := 0,
    seqno2ptr := SeqnoIndex.empty,
    freeze_purge_at_seqno := SEQNO_ILL }

/-- Whether an index item's buffer header carries the RELEASED flag: the
condition `BH_is_released(ptr2BH(*j))` tested by `discard_seqnos`. -/
def releasedAt (st : RB) (it : Int × Nat) : Bool :=
  (st.mem (it.2 - bhSize)).isReleased

/-- The move path of `RingBuffer::realloc` (lines 464-469): allocate a new
buffer, copy the payload (payload bytes are not modelled) and free the old
one. -/
def reallocMove (fuel : Nat) (st : RB) (off : Nat) (size : Nat) :
    Option (Option Nat × RB) :=
  match st.malloc fuel size with
  | none => none
  | some (none, st1) => some (none, st1)
  | some (some pNew, st1) => some (some pNew, st1.free off)

/-- `RingBuffer::realloc` (lines 413-475): shrinking is a no-op; growing
tries to extend in place when the buffer is the last allocation, reverting
`next_` and the accounting when the adjacent allocation fails or lands
elsewhere, and falls back to allocate-copy-free. -/
def realloc (fuel : Nat) (st : RB) (p : Nat) (size : Nat) :
    Option (Option Nat × RB) :=
  if size > st.size_cache / 2 then some (none, st)
  else
    let off := p - bhSize
    let bh := st.mem off
    if (size : Int) - (bh.size : Int) ≤ 0 then some (some p, st)
    else
      let adj_size := size - bh.size
      let adj_ptr := off + bh.size
      if adj_ptr = st.next then
        let size_trail_saved := st.size_trail
        match st.get_new_buffer fuel adj_size with
        | none => none
        | some (r, st1) =>
          if r = some adj_ptr then
            let bh1 := st1.mem off
            let st1' : RB :=
              { st1 with mem := writeBH st1.mem off { bh1 with size := st1.next - p + bhSize } }
            some (some p, st1')
          else
            let st2 : RB :=
              { st1 with
                next := adj_ptr
                mem := writeBH st1.mem adj_ptr BufferHeader.clear
                size_used := st1.size_used - adj_size
                size_free := st1.size_free + adj_size }
            let st3 : RB := if st2.next < st2.first
                       then { st2 with size_trail := size_trail_saved } else st2
            st3.reallocMove fuel off size
      else st.reallocMove fuel off size

/-- Zero a byte range `[a, b)` of the ring body (`memset`): every header
read inside it is clear. -/
def zeroRange (m : Mem) (a b : Nat) : Mem :=
  fun o => if a ≤ o ∧ o < b then BufferHeader.clear else m o

/-- `RingBuffer::estimate_space` (lines 477-512): recompute
`size_used_/size_free_/size_trail_` from the pointers; with `zero_out` also
zero the free regions. -/
def estimate_space (st : RB) (zero_out : Bool) : RB :=
  if st.first < st.next then
    let used := st.next - st.first
    { st with
      size_used := used
      size_free := st.size_cache - used
      size_trail := 0
      mem := if zero_out
             then zeroRange (zeroRange st.mem st.next st.endOff) 0 st.first
             else st.mem }
  else
    let free := st.first - st.next + st.size_trail - bhSize
    { st with
      size_free := free
      size_used := st.size_cache - free
      mem := if zero_out
             then zeroRange (zeroRange st.mem (st.endOff - st.size_trail) st.endOff)
                    st.next st.first
             else st.mem }

/-- The seek-first-unreleased loop of `seqno_reset` (lines 556-570),
fuelled: advance `first_` over released headers, rolling over on a clear
header that is not `next_`. -/
def seqnoResetSeek : Nat → Mem → Nat → Nat → Option Nat
  | 0, _, _, _ => none
  | fuel + 1, mem, first, next =>
    let bh := mem first
    if bh.isReleased then
      let first' := first + bh.size
      if bh.size = 0 ∧ first' ≠ next then
        seqnoResetSeek fuel mem 0 next
      else
        seqnoResetSeek fuel mem first' next
    else some first

/-- The locked-buffer discard walk of `seqno_reset` (lines 599-630),
fuelled: walk from `first_` to `next_`, discarding every buffer still
carrying a seqno, rolling over at clear headers. -/
def seqnoResetWalk : Nat → RB → Nat → Option RB
  | 0, _, _ => none
  | fuel + 1, st, off =>
    if off = st.next then some st
    else
      let bh := st.mem off
      if bh.size > 0 then
        let st' := if bh.seqno_g ≠ SEQNO_NONE then st.discard off else st
        seqnoResetWalk fuel st' (off + bh.size)
      else
        seqnoResetWalk fuel st 0

/-- `RingBuffer::seqno_reset` (lines 514-639), fuelled (`none` = the model
ran out of fuel; the source loops can only diverge on corrupt memory). -/
def seqno_reset (fuel : Nat) (st : RB) (zero_out : Bool) : Option RB :=
  if st.size_cache = st.size_free then some st
  else
    let rbItems := st.seqno2ptr.items.filter
      fun it => (st.mem (it.2 - bhSize)).store == BUFFER_IN_RB
    let mem1 := rbItems.foldl
      (fun m it =>
        writeBH m (it.2 - bhSize) { m (it.2 - bhSize) with seqno_g := SEQNO_NONE })
      st.mem
    match rbItems.getLast? with
    | none => some { st with mem := mem1 }
    | some lit =>
      match seqnoResetSeek fuel mem1 (lit.2 - bhSize) st.next with
      | none => none
      | some first' =>
        let st2 : RB := { st with mem := mem1, first := first' }
        if st2.first = st2.next then some st2.reset
        else
          let st3 := st2.estimate_space zero_out
          match seqnoResetWalk fuel st3 (st3.first + (st3.mem st3.first).size) with
          | none => none
          | some st4 =>
            some (if st4.next > st4.first ∧ st4.first > 0
                  then ({ st4 with mem := writeBH st4.mem 0 BufferHeader.clear } : RB)
                  else st4)

/-- One step of the below-suffix erasure of `recover` (lines 1397-1403):
empty the buffer of a non-null index entry (`empty_buffer(ptr2BH(*i))`);
holes need no action. -/
def emptyFold (m : Mem) (e : Option Nat) : Mem :=
  match e with
  | some p => writeBH m (p - bhSize) (empty_buffer (m (p - bhSize)))
  | none => m

/-- The downward gapless-suffix scan of `recover` (lines 1385-1392),
walking the reversed entry list below `index_back()`: stop at the list end,
at the first hole, or when `seqno_min` reaches `lowest`; `none` models
`assert_ptr_seqno` failing (which clears the map and forces a full reset).
Returns the final `seqno_min` and the remaining reversed tail. -/
def recoverDownScan (mem : Mem) :
    List (Option Nat) → Int → Int → Option (Int × List (Option Nat))
  | [], smin, _ => some (smin, [])
  | e :: revRest, smin, lowest =>
    match e with
    | none => some (smin, e :: revRest)
    | some p =>
      if smin > lowest then
        if (mem (p - bhSize)).seqno_g = smin - 1 then
          recoverDownScan mem revRest (smin - 1) lowest
        else none
      else some (smin, e :: revRest)

/-- The `first_`-trimming loop of `recover` (lines 1414-1425), fuelled:
scan forward over empty (`SEQNO_ILL`) buffers, rolling over at clear
headers. -/
def recoverTrimFirst : Nat → Mem → Nat → Option Nat
  | 0, _, _ => none
  | fuel + 1, mem, off =>
    if (mem off).seqno_g = SEQNO_ILL then
      let off' := off + (mem off).size
      if (mem off').size = 0 then recoverTrimFirst fuel mem 0
      else recoverTrimFirst fuel mem off'
    else some off

/-- The `next_`-trimming walk of `recover` (lines 1427-1458), fuelled: walk
from the last seqno'd buffer up to `next_`, recording the last buffer with
a positive seqno; `some none` models the corrupt-buffer check
(`BH_next(bh) > end - header` or foreign `ctx`) that forces a full reset. -/
def recoverTrimNext : Nat → RB → Nat → Nat → Option (Option Nat)
  | 0, _, _, _ => none
  | fuel + 1, st, off, last =>
    if off = st.next then some (some last)
    else
      let bh := st.mem off
      if bh.size > 0 then
        if off + bh.size > st.size_cache ∨ bh.ctx ≠ rbCtx then some none
        else
          recoverTrimNext fuel st (off + bh.size)
            (if bh.seqno_g > 0 then off else last)
      else recoverTrimNext fuel st 0 last

/-- The final unused-buffer walk of `recover` (lines 1493-1553), fuelled:
`free` every seqno'd buffer, discard the rest; `(true, st)` models the
corrupt-buffer check that forces a full reset from the current state. -/
def recoverFreeWalk : Nat → RB → Nat → Option (Bool × RB)
  | 0, _, _ => none
  | fuel + 1, st, off =>
    if off = st.next then some (false, st)
    else
      let bh := st.mem off
      if bh.size > 0 then
        if off + bh.size > st.size_cache ∨ bh.ctx ≠ rbCtx then some (true, st)
        else
          let st' :=
            if bh.seqno_g > 0 then st.free off
            else
              let std := st.discard off
              { std with size_used := std.size_used - bh.size }
          recoverFreeWalk fuel st' (off + bh.size)
      else recoverFreeWalk fuel st 0

/-- The tail of `recover` after the gapless-suffix erasure (lines
1411-1577): trim `first_` over empty buffers, walk to re-establish
`next_` after the last seqno'd buffer (with 8-byte alignment padding),
write the clear marker, recompute the accounting, and free/discard every
remaining buffer between `first_` and `next_`. -/
def recoverTail (fuel : Nat) (st1 : RB) : Option (Bool × RB) :=
  match recoverTrimFirst fuel st1.mem st1.first with
  | none => none
  | some first' =>
    let st2 : RB := { st1 with first := first' }
    let lastOff := st2.seqno2ptr.back - bhSize
    match recoverTrimNext fuel st2 lastOff lastOff with
    | none => none
    | some none => some (true, st2.reset)
    | some (some lastBh) =>
      let next' := lastBh + (st2.mem lastBh).size
      let st3 : RB :=
        if next' % 8 ≠ 0 then
          let n := 8 * (next' / 8) + 8
          { st2 with
              mem := writeBH st2.mem lastBh
                ({ st2.mem lastBh with
                    size := (st2.mem lastBh).size + (n - next') }),
              next := n }
        else { st2 with next := next' }
      let st4 : RB := { st3 with mem := writeBH st3.mem st3.next BufferHeader.clear }
      let st5 : RB := if st4.first < st4.next then { st4 with size_trail := 0 } else st4
      let st6 := st5.estimate_space false
      match recoverFreeWalk fuel st6 st6.first with
      | none => none
      | some (true, stp) => some (true, stp.reset)
      | some (false, st7) => some (false, st7)

/-- `RingBuffer::recover` after `scan` (lines 1353-1577): `lowest` is
`scan(...) + 1`, the lowest seqno valid after collisions. The result flag
is true when recovery fell back to a full reset (the reset is already
applied to the returned state). `none` = out of fuel. -/
def recoverFromScan (fuel : Nat) (st : RB) (lowest : Int) : Option (Bool × RB) :=
  if st.seqno2ptr.isEmpty then some (true, st.reset)
  else
    let seqno_max := st.seqno2ptr.index_back
    if lowest = seqno_max then
      some (true, ({ st with seqno2ptr := st.seqno2ptr.clear SEQNO_NONE }).reset)
    else
      let backPtr := st.seqno2ptr.back
      if (st.mem (backPtr - bhSize)).seqno_g ≠ seqno_max then
        some (true, ({ st with seqno2ptr := st.seqno2ptr.clear SEQNO_NONE }).reset)
      else
        match recoverDownScan st.mem (st.seqno2ptr.entries.reverse.drop 1)
            seqno_max lowest with
        | none =>
          some (true, ({ st with seqno2ptr := st.seqno2ptr.clear SEQNO_NONE }).reset)
        | some (smin, rRemaining) =>
          let st1 : RB :=
            if rRemaining.isEmpty then st
            else
              { st with
                  mem := rRemaining.foldl emptyFold st.mem,
                  seqno2ptr := st.seqno2ptr.eraseBelow smin }
          recoverTail fuel st1

/-- The tail of the constructor (line 164): after `open_preamble` (reset,
recovery, or neither), the constructor writes `BH_clear(BH_cast(next_))`. -/
def constructFinish (st : RB) : RB :=
  { st with mem := writeBH st.mem st.next BufferHeader.clear }

/-- States reachable through the public RingBuffer operations, started from
construction (with a full reset, with recovery from an arbitrary post-scan
state, or plain). Pointer-taking steps carry the documented caller
preconditions: `free` requires the buffer released (the assert at line
401), caller-side release and `assign_seqno` require a live (`size > 0`)
buffer of this ring, and `realloc` additionally carries the allocator
separation fact that the old buffer's header never coincides with the
final `next_` (the allocator never hands out space overlapping a live
buffer). -/
inductive Reachable : RB → Prop where
  | init_fresh (c : Nat) : Reachable (RB.fresh c)
  | init_plain (m : Mem) (c : Nat) :
      Reachable (RB.constructFinish
        { mem := m, first := 0, next := 0, size_cache := c, size_free := c,
          size_used := 0, size_trail := 0, seqno2ptr := SeqnoIndex.empty,
          freeze_purge_at_seqno := SEQNO_ILL })
  | init_recover (st0 : RB) (lowest : Int) (fuel : Nat) (b : Bool) (st1 : RB) :
      st0.recoverFromScan fuel lowest = some (b, st1) →
      Reachable st1.constructFinish
  | step_reset (st : RB) : Reachable st → Reachable st.reset
  | step_malloc (st st' : RB) (r : Option Nat) (fuel size : Nat) :
      Reachable st → st.malloc fuel size = some (r, st') → Reachable st'
  | step_realloc (st st' : RB) (r : Option Nat) (fuel p size : Nat) :
      Reachable st → st.realloc fuel p size = some (r, st') →
      p - bhSize ≠ st'.next → Reachable st'
  | step_free (st : RB) (off : Nat) :
      Reachable st → (st.mem off).isReleased → Reachable (st.free off)
  | step_release (st : RB) (off : Nat) :
      Reachable st → (st.mem off).size ≠ 0 → Reachable (st.releaseBuffer off)
  | step_assign (st : RB) (p : Nat) (s : Int) :
      Reachable st → (st.mem (p - bhSize)).size ≠ 0 →
      Reachable (st.seqno_assign p s)
  | step_seqno_release (st : RB) (s : Int) :
      Reachable st → Reachable (st.seqno_release s)
  | step_seqno_reset (st st' : RB) (fuel : Nat) (zb : Bool) :
      Reachable st → st.seqno_reset fuel zb = some st' → Reachable st'

/-- Invariant 5 of the spec (section 3): every indexed pointer's header
carries the seqno it is indexed under. Stated over the entry positions so
that it is decidable on concrete states. -/
def seqnoConsistent (st : RB) : Prop :=
  ∀ i : Nat, i < st.seqno2ptr.entries.length →
    (Option.all
      (fun p => (st.mem (p - bhSize)).seqno_g == st.seqno2ptr.base + i)
      ((st.seqno2ptr.entries[i]?).getD none)) = true

instance (st : RB) : Decidable st.seqnoConsistent := by
  unfold seqnoConsistent
  infer_instance

end RB

/-! ### Concrete runs used by witnesses and counterexamples -/

/-- Result state of `malloc(64)` on a fresh ring of `size_cache = 256`. -/
def runSt1 : RB :=
  (((RB.fresh 256).malloc 1 64).getD (none, RB.fresh 256)).2

/-- The state after `malloc(64)`, `assign_seqno(ptr, 1)` on a 256-byte ring:
one ordered, unreleased buffer at offset 0 with payload offset 32. -/
def runSt2 : RB := runSt1.seqno_assign 32 1

/-- Continue `runSt2`: release buffer 1, then `malloc(64)` and
`assign_seqno(·, 2)`: the ring now holds a released ordered buffer (seqno 1,
header at 0) followed by an unreleased ordered buffer (seqno 2, header at
96, payload at 128). -/
def runC3 : RB :=
  ((((runSt2.releaseBuffer 0).malloc 1 64).getD (none, runSt2)).2).seqno_assign 128 2

/-- The claim's notion of the longest gapless suffix, in the spec's
words: scanning down from `index_back()` (whose entry is present by the
deqmap edge invariant), count consecutive non-null entries, stopping at
the first hole or upon reaching `lowest` (one above the highest
collision-damaged seqno); the result is the lowest seqno of the kept
suffix. Compared with what `recover` actually keeps. -/
def SeqnoIndex.gaplessSuffixStart (ix : SeqnoIndex) (lowest : Int) : Int :=
  ix.index_back - min (ix.index_back - lowest).toNat
    ((ix.entries.reverse.drop 1).takeWhile fun e => e.isSome).length

/-- Ring body of a post-scan recovery state: buffers at 0 (seqno 1,
size 96), 96 (seqno 3, size 64) and 160 (seqno 4, size 64); clear
elsewhere. -/
def memC1 : Mem :=
  fun o =>
    if o = 0 then ⟨96, 1, 1, 0, 0⟩
    else if o = 96 then ⟨64, 3, 1, 0, 0⟩
    else if o = 160 then ⟨64, 4, 1, 0, 0⟩
    else BufferHeader.clear

/-- A post-scan state with indexed seqnos 1, 3, 4 and a hole at 2: the
gapless suffix is 3..4. -/
def stC1 : RB :=
  { mem := memC1
    first := 0
    next := 224
    size_cache := 256
    size_free := 0
    size_used := 224
    size_trail := 0
    seqno2ptr := ⟨1, [some 32, none, some 128, some 192]⟩
    freeze_purge_at_seqno := SEQNO_ILL }

/-- The state `recover` reaches from `stC1` (no fallback to reset). -/
def stC1' : RB :=
  ((stC1.recoverFromScan 8 1).getD (true, stC1)).2

/-! ### The encrypted memory mapping (gu_enc_mmap.cpp) -/

/-- Modelled from the spec: the AES-CTR stream cipher of
`enc_stream_cipher.h` (the header is absent from the tree) XORs each byte
with a keystream byte determined by the key and the byte's absolute
position in the stream; `set_stream_offset(p)` positions the stream so the
i-th processed byte is combined with keystream byte `p + i`, and
encryption and decryption are the same XOR. Bytes are `Nat` (XOR of
values below 256 stays below 256, so no reduction is needed). -/
def ctrXor (ks : Nat → Nat) : Nat → List Nat → List Nat
  | _, [] => []
  | pos, b :: bs => (b ^^^ ks pos) :: ctrXor ks (pos + 1) bs

/-- The fields of `EncMMap` (gu_enc_mmap.hpp lines 86-101) relevant to
`encrypt`/`decrypt`: the page geometry set up by the constructor (lines
309-315: `pages_cnt_ = vmem_size_ / page_size_`, incremented with
`last_page_size_ = vmem_size_ % page_size_` when unaligned), the
plaintext prefix bound `encryption_start_offset_`, and the keystream of
the encryptor/decryptor pair (same key, same counter stream). -/
structure EncModel where
  page_size : Nat
  pages_cnt : Nat
  last_page_size : Nat
  encryption_start_offset : Nat
  ks : Nat → Nat

namespace EncModel

/-- `is_last_page` (gu_enc_mmap.hpp lines 99-101). -/
def is_last_page (m : EncModel) (page : Nat) : Bool :=
  page == m.pages_cnt - 1

/-- `EncMMap::encrypt` (gu_enc_mmap.cpp lines 182-204) on one page worth
of bytes `src`: clamp `size` to `last_page_size_` on the last page; if the
page starts below `encryption_start_offset_`, copy
`min(size, encryption_start_offset_)` bytes verbatim; CTR-encrypt the
rest with the stream positioned at `page_start_offset + unencrypted_size`. -/
def encrypt (m : EncModel) (src : List Nat) (size page_number : Nat) : List Nat :=
  let size := if m.is_last_page page_number then m.last_page_size else size
  let page_start_offset := page_number * m.page_size
  let unencrypted_size :=
    if page_start_offset < m.encryption_start_offset then
      min size m.encryption_start_offset
    else 0
  src.take unencrypted_size ++
    ctrXor m.ks (page_start_offset + unencrypted_size)
      ((src.drop unencrypted_size).take (size - unencrypted_size))

/-- `EncMMap::decrypt` (gu_enc_mmap.cpp lines 206-228): identical control
flow with the decryptor's stream, which for CTR is the same keystream. -/
def decrypt (m : EncModel) (src : List Nat) (size page_number : Nat) : List Nat :=
  let size := if m.is_last_page page_number then m.last_page_size else size
  let page_start_offset := page_number * m.page_size
  let unencrypted_size :=
    if page_start_offset < m.encryption_start_offset then
      min size m.encryption_start_offset
    else 0
  src.take unencrypted_size ++
    ctrXor m.ks (page_start_offset + unencrypted_size)
      ((src.drop unencrypted_size).take (size - unencrypted_size))

/-- The per-byte layout in the words of the spec: a byte at file offset
`page_number * page_size + i` is copied verbatim exactly when that file
offset is below `encryption_start_offset`, and otherwise XORed with the
keystream byte at its own file offset. Compared against `encrypt` (the
translation of the source). -/
def encryptSpecClaimed (m : EncModel) (src : List Nat) (size page_number : Nat) :
    List Nat :=
  let size := if m.is_last_page page_number then m.last_page_size else size
  (src.take size).enum.map fun p =>
    if page_number * m.page_size + p.1 < m.encryption_start_offset then p.2
    else p.2 ^^^ m.ks (page_number * m.page_size + p.1)

end EncModel

/-- A 5-byte mapping over 2-byte pages (last page short:
`vmem_size = 5`, `page_size = 2`, so `pages_cnt = 3`,
`last_page_size = 1`) with `encryption_start_offset = 3` and a constant
keystream byte 1: page 1 spans file offsets 2..3, straddling the
encryption start. -/
def encCounterModel : EncModel :=
  { page_size := 2, pages_cnt := 3, last_page_size := 1,
    encryption_start_offset := 3, ks := fun _ => 1 }

/-! ### Master-key management and the encryption preamble
(gcache_rb_store.cpp lines 660-712 and 729-1042, gu_enc_utils.cpp) -/

/-- Modelled from the spec: UUIDs and keys are symbolic strings; this is
the all-zero `GU_UUID_NIL`. -/
def GU_UUID_NIL : String := "00000000-0000-0000-0000-000000000000"

/-- `create_master_key_name` (gu_enc_utils.cpp lines 127-136):
`"GaleraKey-" << uuid << "@" << const_uuid << "-" << keyId` — the
per-rotation `uuid` comes first in the name, the constant cache id after
the `@`, although `const_uuid` is the first argument. -/
def create_master_key_name (const_uuid uuid : String) (keyId : Nat) : String :=
  "GaleraKey-" ++ uuid ++ "@" ++ const_uuid ++ "-" ++ toString keyId

/-- The Master Key provider callbacks (gu_enc_utils.hpp lines 137-165).
`createFails` models `create_key` returning non-zero; `getKeyAfterCreate`
is what `get_key` returns once `create_key` succeeded (the provider is
stateful in C++; the two functions are its lookup before and after the
create call). -/
structure MKProvider where
  getKey : String → String
  createFails : String → Bool
  getKeyAfterCreate : String → String

/-- Modelled from the spec: the cryptographic primitives of
gu_enc_utils.cpp (AES-CTR key wrapping `encrypt_key`/`decrypt_key`,
base64 `encode64`/`decode64`, CRC32C over the encryption preamble
fields) and the fresh-value generators (`gu::UUID(0, 0)`,
`generate_random_key`) as abstract symbolic operations on strings.
`crcEnc` takes the fields in the order they are appended (lines 885-894
and 768-775): enc_version, enc_encrypted, master_key_id, const_mk_id,
master_key_uuid, file_key. -/
structure EncCtx where
  encryptKey : String → String → String
  decryptKey : String → String → String
  enc64 : String → String
  dec64 : String → String
  crcEnc : Nat → Bool → Nat → String → String → String → Nat
  freshConstUuid : String
  freshMkUuid : String
  freshFileKey : String

/-- `RingBuffer::generate_new_master_key` (lines 660-679): empty result
(failure) if the key already exists, if `create_key` fails, or if the
key cannot be read back after creation. -/
def MKProvider.generate_new_master_key (pr : MKProvider) (key_name : String) : String :=
  let key := pr.getKey key_name
  if key ≠ "" then ""
  else if pr.createFails key_name then ""
  else
    let key := pr.getKeyAfterCreate key_name
    if key = "" then "" else key

/-- The encryption fields stored in (and parsed back from) the preamble:
`enc_version:`, `enc_encrypted:`, `enc_mk_id:`, `enc_mk_const_id:`,
`enc_mk_uuid:`, `enc_fk_id:`, `enc_crc:` (lines 760-777 and 828-834). -/
structure PreambleEnc where
  enc_version : Nat
  enc_encrypted : Bool
  mk_id : Nat
  mk_const_uuid : String
  mk_uuid : String
  fk : String
  enc_crc : Nat

/-- The encryption-related members of `RingBuffer`, together with the
key handed to `mmap_.set_key` and the preamble contents last written. -/
structure RBEnc where
  encrypt_flag : Bool
  master_key_id : Nat
  master_key_uuid : String
  const_mk_id : String
  file_key : String
  mmap_key : String
  preamble : PreambleEnc

/-- The encryption part of the preamble written by `write_preamble`
(lines 754-777): the current members and their CRC32C
(`ENCRYPTION_VERSION = 1`). -/
def encPreambleOf (ctx : EncCtx) (st : RBEnc) : PreambleEnc :=
  { enc_version := 1
    enc_encrypted := st.encrypt_flag
    mk_id := st.master_key_id
    mk_const_uuid := st.const_mk_id
    mk_uuid := st.master_key_uuid
    fk := st.file_key
    enc_crc := ctx.crcEnc 1 st.encrypt_flag st.master_key_id st.const_mk_id
      st.master_key_uuid st.file_key }

/-- `write_preamble` (lines 729-789) restricted to its effect on the
stored encryption fields. -/
def writePreamble (ctx : EncCtx) (st : RBEnc) : RBEnc :=
  { st with preamble := encPreambleOf ctx st }

/-- `RingBuffer::rotate_master_key` (lines 681-712): read the current
Master Key (true = failure if absent), decrypt the file key with it,
generate Master Key `mk_id + 1` (true = failure if that fails), then
increment `master_key_id_`, store the file key re-encrypted under the
new Master Key, rewrite the preamble, and return false. -/
def rotate_master_key (ctx : EncCtx) (pr : MKProvider) (st : RBEnc) : Bool × RBEnc :=
  let old_mk_name :=
    create_master_key_name st.const_mk_id st.master_key_uuid st.master_key_id
  let old_mk := pr.getKey old_mk_name
  if old_mk = "" then (true, st)
  else
    let unencrypted_file_key := ctx.decryptKey (ctx.dec64 st.file_key) old_mk
    let new_mk_name :=
      create_master_key_name st.const_mk_id st.master_key_uuid (st.master_key_id + 1)
    let new_mk := pr.generate_new_master_key new_mk_name
    if new_mk = "" then (true, st)
    else
      (false, writePreamble ctx
        { st with
          master_key_id := st.master_key_id + 1
          file_key := ctx.enc64 (ctx.encryptKey unencrypted_file_key new_mk) })

/-- Step 2-3 of the encryption block of `open_preamble` (lines 976-998):
with the Master Key `mk` in hand, decrypt the stored file key — or, when
it is empty, generate a fresh one, store it encrypted under `mk` and
force a reset; the plaintext file key is handed to the mmap, and the
preamble is rewritten at the end of `open_preamble` (line 1041). -/
def openPreambleFinish (ctx : EncCtx) (p : PreambleEnc) (force_reset : Bool)
    (const_id uuid : String) (mk_id : Nat) (fk mk : String) : Option (Bool × RBEnc) :=
  if fk = "" then
    some (true, writePreamble ctx
      { encrypt_flag := true
        master_key_id := mk_id
        master_key_uuid := uuid
        const_mk_id := const_id
        file_key := ctx.enc64 (ctx.encryptKey ctx.freshFileKey mk)
        mmap_key := ctx.freshFileKey
        preamble := p })
  else
    some (force_reset, writePreamble ctx
      { encrypt_flag := true
        master_key_id := mk_id
        master_key_uuid := uuid
        const_mk_id := const_id
        file_key := fk
        mmap_key := ctx.decryptKey (ctx.dec64 fk) mk
        preamble := p })

/-- The encryption handling of `RingBuffer::open_preamble`
(lines 844-998), starting after the preamble fields are parsed into the
members: regenerate a nil cache id (lines 855-858); on an encryption
on/off switch clear the key material and force a reset (lines 859-870);
when encryption is on, recompute the CRC32C of the encryption fields only
when a non-zero CRC is stored, and clear the file key and master key id
when the stored CRC is zero or differs (lines 885-908); run the Master
Key loop (lines 910-968) — it iterates at most twice, since a failed
lookup clears `master_key_id_` and the file key and the retry takes the
generate branch, which never retries; `none` models the `throw` when no
Master Key can be obtained (lines 970-975). The returned flag is
`force_reset`, on which `open_preamble` calls `reset()`
(lines 1013-1016). -/
def openPreambleEnc (ctx : EncCtx) (pr : MKProvider) (encryptFlag : Bool)
    (p : PreambleEnc) : Option (Bool × RBEnc) :=
  let const0 := if p.mk_const_uuid = GU_UUID_NIL then ctx.freshConstUuid
    else p.mk_const_uuid
  let fk0 := if p.enc_encrypted ≠ encryptFlag then "" else p.fk
  let mkid0 := if p.enc_encrypted ≠ encryptFlag then 0 else p.mk_id
  let uuid0 := if p.enc_encrypted ≠ encryptFlag then GU_UUID_NIL else p.mk_uuid
  let fr0 := if p.enc_encrypted ≠ encryptFlag then true else false
  if encryptFlag then
    let crc_val := if p.enc_crc ≠ 0 then
        ctx.crcEnc p.enc_version p.enc_encrypted mkid0 const0 uuid0 fk0
      else 0
    let fk1 := if p.enc_crc = 0 ∨ crc_val ≠ p.enc_crc then "" else fk0
    let mkid1 := if p.enc_crc = 0 ∨ crc_val ≠ p.enc_crc then 0 else mkid0
    if mkid1 = 0 ∨ uuid0 = GU_UUID_NIL then
      let uuid2 := ctx.freshMkUuid
      let mk := pr.generate_new_master_key (create_master_key_name const0 uuid2 1)
      if mk = "" then none
      else openPreambleFinish ctx p fr0 const0 uuid2 1 fk1 mk
    else
      let mk := pr.getKey (create_master_key_name const0 uuid0 mkid1)
      let next_mk := pr.getKey (create_master_key_name const0 uuid0 (mkid1 + 1))
      let mk1 := if mk ≠ "" ∧ next_mk ≠ "" then "" else mk
      if mk1 ≠ "" then openPreambleFinish ctx p fr0 const0 uuid0 mkid1 fk1 mk1
      else
        let uuid2 := ctx.freshMkUuid
        let mk2 := pr.generate_new_master_key (create_master_key_name const0 uuid2 1)
        if mk2 = "" then none
        else openPreambleFinish ctx p fr0 const0 uuid2 1 "" mk2
  else
    some (fr0, writePreamble ctx
      { encrypt_flag := encryptFlag
        master_key_id := mkid0
        master_key_uuid := uuid0
        const_mk_id := const0
        file_key := fk0
        mmap_key := ""
        preamble := p })

/-- A symbolic crypto context for concrete evaluation: key wrapping and
base64 are tagging string constructors, the CRC sums the fields. -/
def encCtxW : EncCtx :=
  { encryptKey := fun d k => "enc." ++ d ++ "." ++ k
    decryptKey := fun d k => "dec." ++ d ++ "." ++ k
    enc64 := fun s => "b64." ++ s
    dec64 := fun s => "raw." ++ s
    crcEnc := fun v e id cu u fk =>
      v + (if e then 1 else 0) + id + cu.length + u.length + fk.length
    freshConstUuid := "const-uuid-new"
    freshMkUuid := "mk-uuid-new"
    freshFileKey := "fresh-file-key" }

/-- A provider with an empty keyring whose `create_key` fails. -/
def mkProviderEmptyW : MKProvider :=
  { getKey := fun _ => ""
    createFails := fun _ => true
    getKeyAfterCreate := fun _ => "" }

/-- A provider holding exactly the Master Key `GaleraKey-u0@cid-1` whose
`create_key` succeeds. -/
def mkProviderOkW : MKProvider :=
  { getKey := fun name => if name = "GaleraKey-u0@cid-1" then "MK1" else ""
    createFails := fun _ => false
    getKeyAfterCreate := fun name => "new." ++ name }

/-- A parsed preamble whose stored `enc_crc` (999) does not match the
CRC of its encryption fields. -/
def preambleW : PreambleEnc :=
  { enc_version := 1
    enc_encrypted := true
    mk_id := 5
    mk_const_uuid := "cid"
    mk_uuid := "u0"
    fk := "fk0"
    enc_crc := 999 }

/-- An encrypted ring state with Master Key id 1 and a stored file key. -/
def rbEncW : RBEnc :=
  { encrypt_flag := true
    master_key_id := 1
    master_key_uuid := "u0"
    const_mk_id := "cid"
    file_key := "fk0"
    mmap_key := ""
    preamble := preambleW }

/-! ### Helper lemmas on memory writes and the index -/

theorem writeBH_same (m : Mem) (off : Nat) (bh : BufferHeader) :
    writeBH m off bh off = bh := by simp [writeBH]

theorem writeBH_other (m : Mem) (off o : Nat) (bh : BufferHeader) (h : o ≠ off) :
    writeBH m off bh o = m o := by simp [writeBH, h]

theorem empty_buffer_idem (bh : BufferHeader) :
    empty_buffer (empty_buffer bh) = empty_buffer bh := rfl

namespace SeqnoIndex

theorem getElem?_of_lt_takeWhile_length {l : List (Option Nat)} {i : Nat}
    (h : i < (l.takeWhile fun e => e.isNone).length) : l[i]? = some none := by
  induction l generalizing i with
  | nil => simp at h
  | cons a t ih =>
    rw [List.takeWhile_cons] at h
    by_cases ha : a.isNone
    · rw [if_pos ha] at h
      cases i with
      | zero => simpa using Option.isNone_iff_eq_none.mp ha
      | succ j => simpa using ih (by simpa using h)
    · rw [if_neg ha] at h
      simp at h

theorem get_append_all_none (b : Int) (l t : List (Option Nat))
    (ht : ∀ x ∈ t, x = none) (s : Int) :
    (SeqnoIndex.mk b (l ++ t)).get s = (SeqnoIndex.mk b l).get s := by
  unfold get
  by_cases hb : b ≤ s
  · simp only [if_pos hb]
    rcases Nat.lt_or_ge (s - b).toNat l.length with hlt | hge
    · rw [List.getElem?_append, if_pos hlt]
    · rw [List.getElem?_append_right hge, List.getElem?_eq_none hge]
      rcases he : t[(s - b).toNat - l.length]? with _ | x
      · rfl
      · have := ht x (List.getElem?_mem he)
        simp [this]
  · simp only [if_neg hb]

theorem trimFront_get (ix : SeqnoIndex) (s : Int) :
    ix.trimFront.get s = ix.get s := by
  obtain ⟨b, l⟩ := ix
  show (SeqnoIndex.mk (b + (l.takeWhile fun e => e.isNone).length)
          (l.drop (l.takeWhile fun e => e.isNone).length)).get s
        = (SeqnoIndex.mk b l).get s
  set k := (l.takeWhile fun e => e.isNone).length with hk
  unfold get
  simp only
  by_cases h1 : (b : Int) + k ≤ s
  · rw [if_pos h1, if_pos (by omega), List.getElem?_drop]
    congr 2
    omega
  · rw [if_neg h1]
    by_cases h2 : b ≤ s
    · rw [if_pos h2, getElem?_of_lt_takeWhile_length (l := l) (i := (s - b).toNat)
          (by rw [← hk]; omega)]
      rfl
    · rw [if_neg h2]

theorem trimBack_get (ix : SeqnoIndex) (s : Int) :
    ix.trimBack.get s = ix.get s := by
  obtain ⟨b, l⟩ := ix
  have hl : (l.reverse.dropWhile fun e => e.isNone).reverse ++
      (l.reverse.takeWhile fun e => e.isNone).reverse = l := by
    rw [← List.reverse_append, List.takeWhile_append_dropWhile, List.reverse_reverse]
  have ht : ∀ x ∈ (l.reverse.takeWhile fun e => e.isNone).reverse, x = none := by
    intro x hx
    rw [List.mem_reverse] at hx
    exact Option.isNone_iff_eq_none.mp (List.mem_takeWhile_imp hx)
  have := get_append_all_none b ((l.reverse.dropWhile fun e => e.isNone).reverse)
      ((l.reverse.takeWhile fun e => e.isNone).reverse) ht s
  rw [hl] at this
  exact this.symm

theorem eraseAt_get (ix : SeqnoIndex) (s s' : Int) :
    (ix.eraseAt s).get s' = if s' = s then none else ix.get s' := by
  obtain ⟨b, l⟩ := ix
  unfold eraseAt
  by_cases hin : b ≤ s ∧ s < index_end ⟨b, l⟩
  · rw [if_pos hin]
    rw [trimBack_get, trimFront_get]
    have hlen : (s - b).toNat < l.length := by
      have h2 := hin.2
      simp [index_end] at h2
      omega
    unfold get
    simp only
    by_cases hss : s' = s
    · subst hss
      rw [if_pos rfl, if_pos hin.1, List.getElem?_set_self hlen]
      rfl
    · rw [if_neg hss]
      by_cases hb : b ≤ s'
      · rw [if_pos hb, if_pos hb, List.getElem?_set_ne (by omega)]
      · rw [if_neg hb, if_neg hb]
  · rw [if_neg hin]
    by_cases hss : s' = s
    · subst hss
      rw [if_pos rfl]
      unfold get
      simp only
      by_cases hb : b ≤ s'
      · rw [if_pos hb]
        have hlen : l.length ≤ (s' - b).toNat := by
          simp [index_end, not_and, not_lt] at hin
          have := hin hb
          omega
        rw [List.getElem?_eq_none hlen]
        rfl
      · rw [if_neg hb]
    · rw [if_neg hss]

theorem itemsUpTo_mem_iff (ix : SeqnoIndex) (s s' : Int) (p : Nat) :
    (s', p) ∈ ix.itemsUpTo s ↔ s' ≤ s ∧ ix.get s' = some p := by
  obtain ⟨b, l⟩ := ix
  unfold itemsUpTo get
  simp only [List.mem_filterMap, List.mem_range]
  constructor
  · rintro ⟨i, hi, hcond⟩
    by_cases hle : (b : Int) + i ≤ s
    · rw [if_pos hle] at hcond
      rcases he : (l[i]?).getD none with _ | q
      · rw [he] at hcond; simp at hcond
      · rw [he, Option.map_some'] at hcond
        have heq := Option.some.inj hcond
        have hs1 : s' = b + i := (congrArg Prod.fst heq).symm
        have hq : q = p := congrArg Prod.snd heq
        subst hs1 hq
        refine ⟨hle, ?_⟩
        rw [if_pos (by omega : b ≤ b + (i : Int))]
        have hidx : ((b + (i : Int)) - b).toNat = i := by omega
        rw [hidx]
        exact he
    · rw [if_neg hle] at hcond
      simp at hcond
  · rintro ⟨hle, hget⟩
    by_cases hb : b ≤ s'
    · rw [if_pos hb] at hget
      rcases he : l[(s' - b).toNat]? with _ | q
      · rw [he] at hget; simp at hget
      · rw [he] at hget
        simp only [Option.getD_some] at hget
        refine ⟨(s' - b).toNat, (List.getElem?_eq_some.mp he).1, ?_⟩
        rw [if_pos (by omega), he]
        simp only [Option.getD_some, hget, Option.map_some']
        have hb2 : b + (((s' - b).toNat : Nat) : Int) = s' := by omega
        rw [hb2]
    · rw [if_neg hb] at hget
      simp at hget

theorem itemsUpTo_pairwise (ix : SeqnoIndex) (s : Int) :
    (ix.itemsUpTo s).Pairwise fun a b => a.1 ≠ b.1 := by
  unfold itemsUpTo
  rw [List.pairwise_filterMap]
  refine (List.pairwise_lt_range _).imp ?_
  intro i j hij x hx y hy
  by_cases hi : (ix.base + i : Int) ≤ s
  · by_cases hj : (ix.base + j : Int) ≤ s
    · rw [if_pos hi] at hx
      rw [if_pos hj] at hy
      rcases hxi : (ix.entries[i]?).getD none with _ | p
      · rw [hxi] at hx; simp at hx
      · rcases hyj : (ix.entries[j]?).getD none with _ | q
        · rw [hyj] at hy; simp at hy
        · rw [hxi, Option.map_some'] at hx
          rw [hyj, Option.map_some'] at hy
          rw [Option.mem_def, Option.some.injEq] at hx hy
          intro hc
          rw [← hx, ← hy] at hc
          simp at hc
          omega
    · rw [if_neg hj] at hy; simp at hy
  · rw [if_neg hi] at hx; simp at hx

end SeqnoIndex

/-- Converting the positional form of `seqnoConsistent` to the `get` form. -/
theorem RB.seqnoConsistent_get {st : RB} (h : st.seqnoConsistent)
    {s : Int} {p : Nat} (hget : st.seqno2ptr.get s = some p) :
    (st.mem (p - bhSize)).seqno_g = s := by
  unfold SeqnoIndex.get at hget
  by_cases hb : st.seqno2ptr.base ≤ s
  · rw [if_pos hb] at hget
    rcases he : st.seqno2ptr.entries[(s - st.seqno2ptr.base).toNat]? with _ | q
    · rw [he] at hget; simp at hget
    · have hlen := (List.getElem?_eq_some.mp he).1
      have := h (s - st.seqno2ptr.base).toNat hlen
      rw [he] at this hget
      simp only [Option.getD_some] at this hget
      rw [hget] at this
      simp only [Option.all_some, beq_iff_eq] at this
      rw [this]
      omega
  · rw [if_neg hb] at hget
    simp at hget

theorem takeWhile_congr_of_mem {α : Type} {p q : α → Bool} :
    ∀ l : List α, (∀ a ∈ l, p a = q a) → l.takeWhile p = l.takeWhile q
  | [], _ => rfl
  | a :: t, h => by
    rw [List.takeWhile_cons, List.takeWhile_cons, h a (List.mem_cons_self a t)]
    by_cases hq : q a
    · rw [if_pos hq, if_pos hq,
        takeWhile_congr_of_mem t fun x hx => h x (List.mem_cons_of_mem a hx)]
    · rw [if_neg hq, if_neg hq]

theorem RB.skip_purge_of_ill {st : RB} (h : st.freeze_purge_at_seqno = SEQNO_ILL)
    (s : Int) : st.skip_purge s = false := by
  simp [RB.skip_purge, h]

/-- Characterization of the `discard_seqnos` loop over the visited entry
sequence `L`: with purging not frozen, distinct seqnos, and each visited
header carrying its seqno, the loop erases and empties exactly the maximal
released prefix of `L`, returns true iff that prefix is all of `L`, and
leaves `first_`, `next_`, `size_used_` and all other memory untouched. -/
theorem RB.discardSeqnosGo_spec (L : List (Int × Nat)) (st : RB)
    (hfz : st.freeze_purge_at_seqno = SEQNO_ILL)
    (hmem : ∀ it ∈ L, (st.mem (it.2 - bhSize)).seqno_g = it.1)
    (hdist : L.Pairwise fun a b => a.1 ≠ b.1) :
    ((RB.discardSeqnosGo st L).1 = true ↔ L.takeWhile st.releasedAt = L) ∧
    (∀ off, (RB.discardSeqnosGo st L).2.mem off =
        if ∃ it ∈ L.takeWhile st.releasedAt, it.2 - bhSize = off
        then empty_buffer (st.mem off) else st.mem off) ∧
    (∀ s', (RB.discardSeqnosGo st L).2.seqno2ptr.get s' =
        if ∃ it ∈ L.takeWhile st.releasedAt, it.1 = s'
        then none else st.seqno2ptr.get s') ∧
    (RB.discardSeqnosGo st L).2.first = st.first ∧
    (RB.discardSeqnosGo st L).2.next = st.next ∧
    (RB.discardSeqnosGo st L).2.size_used = st.size_used ∧
    (RB.discardSeqnosGo st L).2.freeze_purge_at_seqno = st.freeze_purge_at_seqno := by
  induction L generalizing st with
  | nil =>
    refine ⟨by simp [RB.discardSeqnosGo], fun off => ?_, fun s' => ?_, rfl, rfl, rfl, rfl⟩
    · simp [RB.discardSeqnosGo]
    · simp [RB.discardSeqnosGo]
  | cons it rest ih =>
    obtain ⟨s0, p0⟩ := it
    have hsp : st.skip_purge s0 = false := RB.skip_purge_of_ill hfz s0
    have hs0 : (st.mem (p0 - bhSize)).seqno_g = s0 :=
      hmem (s0, p0) (List.mem_cons_self (s0, p0) rest)
    have hdist1 := (List.pairwise_cons.mp hdist).1
    have hdist2 := (List.pairwise_cons.mp hdist).2
    by_cases hrel : (st.mem (p0 - bhSize)).isReleased
    · -- released: one erase + discard step, then the loop continues
      have hPcons : ((s0, p0) :: rest).takeWhile st.releasedAt
          = (s0, p0) :: rest.takeWhile st.releasedAt :=
        List.takeWhile_cons_of_pos (by simpa [RB.releasedAt] using hrel)
      have hoff_ne : ∀ it' ∈ rest, it'.2 - bhSize ≠ p0 - bhSize := by
        intro it' hit' hco
        have h1 := hmem it' (List.mem_cons_of_mem _ hit')
        rw [hco, hs0] at h1
        exact hdist1 it' hit' h1
      -- uniform description of the post-head state
      have key : ∀ st2 : RB,
          (∀ o, st2.mem o
            = writeBH st.mem (p0 - bhSize) (empty_buffer (st.mem (p0 - bhSize))) o) →
          st2.seqno2ptr = st.seqno2ptr.eraseAt s0 →
          st2.first = st.first → st2.next = st.next →
          st2.size_used = st.size_used →
          st2.freeze_purge_at_seqno = st.freeze_purge_at_seqno →
          (RB.discardSeqnosGo st ((s0, p0) :: rest) = RB.discardSeqnosGo st2 rest) →
          ((RB.discardSeqnosGo st ((s0, p0) :: rest)).1 = true ↔
              ((s0, p0) :: rest).takeWhile st.releasedAt = (s0, p0) :: rest) ∧
          (∀ off, (RB.discardSeqnosGo st ((s0, p0) :: rest)).2.mem off =
              if ∃ it ∈ ((s0, p0) :: rest).takeWhile st.releasedAt, it.2 - bhSize = off
              then empty_buffer (st.mem off) else st.mem off) ∧
          (∀ s', (RB.discardSeqnosGo st ((s0, p0) :: rest)).2.seqno2ptr.get s' =
              if ∃ it ∈ ((s0, p0) :: rest).takeWhile st.releasedAt, it.1 = s'
              then none else st.seqno2ptr.get s') ∧
          (RB.discardSeqnosGo st ((s0, p0) :: rest)).2.first = st.first ∧
          (RB.discardSeqnosGo st ((s0, p0) :: rest)).2.next = st.next ∧
          (RB.discardSeqnosGo st ((s0, p0) :: rest)).2.size_used = st.size_used ∧
          (RB.discardSeqnosGo st ((s0, p0) :: rest)).2.freeze_purge_at_seqno
            = st.freeze_purge_at_seqno := by
        intro st2 h2mem h2idx h2first h2next h2used h2fz hstep
        have h2mem_rest : ∀ it' ∈ rest,
            st2.mem (it'.2 - bhSize) = st.mem (it'.2 - bhSize) := by
          intro it' hit'
          rw [h2mem, writeBH_other _ _ _ _ (hoff_ne it' hit')]
        have hPcongr : rest.takeWhile st2.releasedAt = rest.takeWhile st.releasedAt :=
          takeWhile_congr_of_mem rest fun it' hit' => by
            simp only [RB.releasedAt, h2mem_rest it' hit']
        have ihs := ih st2 (h2fz.trans hfz)
          (fun it' hit' => by
            rw [h2mem_rest it' hit']
            exact hmem it' (List.mem_cons_of_mem _ hit'))
          hdist2
        rw [hPcongr] at ihs
        rw [hstep, hPcons]
        refine ⟨?_, fun off => ?_, fun s' => ?_, ?_, ?_, ?_, ?_⟩
        · rw [ihs.1]
          constructor
          · intro h; rw [h]
          · intro h
            injection h with h1 h2
        · rw [ihs.2.1 off]
          by_cases hP2 : ∃ it' ∈ rest.takeWhile st.releasedAt, it'.2 - bhSize = off
          · rw [if_pos hP2]
            obtain ⟨w, hw, hwo⟩ := hP2
            rw [if_pos ⟨w, List.mem_cons_of_mem _ hw, hwo⟩, h2mem]
            by_cases ho : off = p0 - bhSize
            · subst ho; rw [writeBH_same]; exact empty_buffer_idem _
            · rw [writeBH_other _ _ _ _ ho]
          · rw [if_neg hP2, h2mem]
            by_cases ho : off = p0 - bhSize
            · subst ho
              rw [writeBH_same,
                if_pos ⟨(s0, p0), List.mem_cons_self _ _, rfl⟩]
            · rw [writeBH_other _ _ _ _ ho]
              have hno : ¬ ∃ it' ∈ (s0, p0) :: rest.takeWhile st.releasedAt,
                  it'.2 - bhSize = off := by
                rintro ⟨w, hw, hwo⟩
                rcases List.mem_cons.mp hw with hw1 | hw2
                · subst hw1; exact ho hwo.symm
                · exact hP2 ⟨w, hw2, hwo⟩
              rw [if_neg hno]
        · rw [ihs.2.2.1 s', h2idx, SeqnoIndex.eraseAt_get]
          by_cases hss : s' = s0
          · subst hss
            have hhead : ∃ it ∈ (s', p0) :: rest.takeWhile st.releasedAt, it.1 = s' :=
              ⟨(s', p0), List.mem_cons_self _ _, rfl⟩
            by_cases hP2 : ∃ it' ∈ rest.takeWhile st.releasedAt, it'.1 = s'
            · rw [if_pos hP2, if_pos hhead]
            · rw [if_neg hP2, if_pos rfl, if_pos hhead]
          · rw [if_neg hss]
            by_cases hP2 : ∃ it' ∈ rest.takeWhile st.releasedAt, it'.1 = s'
            · obtain ⟨w, hw, hw1⟩ := hP2
              rw [if_pos ⟨w, hw, hw1⟩, if_pos ⟨w, List.mem_cons_of_mem _ hw, hw1⟩]
            · rw [if_neg hP2]
              have hno : ¬ ∃ it' ∈ (s0, p0) :: rest.takeWhile st.releasedAt,
                  it'.1 = s' := by
                rintro ⟨w, hw, hw1⟩
                rcases List.mem_cons.mp hw with hw2 | hw2
                · subst hw2; exact hss hw1.symm
                · exact hP2 ⟨w, hw2, hw1⟩
              rw [if_neg hno]
        · rw [ihs.2.2.2.1]; exact h2first
        · rw [ihs.2.2.2.2.1]; exact h2next
        · rw [ihs.2.2.2.2.2.1]; exact h2used
        · rw [ihs.2.2.2.2.2.2]; exact h2fz
      by_cases hstore : (st.mem (p0 - bhSize)).store = BUFFER_IN_RB
      · refine key ({ st with seqno2ptr := st.seqno2ptr.eraseAt s0 }.discard (p0 - bhSize))
          (fun o => rfl) rfl rfl rfl rfl rfl ?_
        simp only [RB.discardSeqnosGo, hsp, Bool.false_eq_true, if_false, hrel,
          if_true, hstore]
      · refine key ({ st with seqno2ptr := st.seqno2ptr.eraseAt s0 }.storeDetach (p0 - bhSize))
          (fun o => rfl) rfl rfl rfl rfl rfl ?_
        simp only [RB.discardSeqnosGo, hsp, Bool.false_eq_true, if_false, hrel,
          if_true, hstore]
    · -- unreleased head: stop, state unchanged
      have hstep : RB.discardSeqnosGo st ((s0, p0) :: rest) = (false, st) := by
        simp only [RB.discardSeqnosGo, hsp, Bool.false_eq_true, if_false, hrel]
      have hPnil : ((s0, p0) :: rest).takeWhile st.releasedAt = [] :=
        List.takeWhile_cons_of_neg (by simpa [RB.releasedAt] using hrel)
      rw [hstep, hPnil]
      refine ⟨?_, fun off => by simp, fun s' => by simp, rfl, rfl, rfl, rfl⟩
      constructor
      · intro h; simp at h
      · intro h; exact absurd h.symm (List.cons_ne_nil _ _)

/-! ### C3: discard_seqnos stops at the first unreleased buffer -/

/-- C3: `RingBuffer::discard_seqnos` over `[index_front(), s]` walks the
non-null index entries in increasing seqno order, erasing released entries
and discarding their buffers; at the first entry whose buffer header does
not carry the RELEASED flag it returns false, leaving that entry and every
entry after it untouched (both the index entry and the buffer header);
consequently `seqno_release(s)` never reclaims a buffer whose seqno is
greater than `s`. -/
theorem discard_seqnos_stops_at_first_unreleased (st : RB) (s : Int)
    (hfz : st.freeze_purge_at_seqno = SEQNO_ILL)
    (hcons : st.seqnoConsistent) :
    ((st.discard_seqno s).1 = true ↔
      (st.seqno2ptr.itemsUpTo s).takeWhile st.releasedAt = st.seqno2ptr.itemsUpTo s) ∧
    (∀ s' p, st.seqno2ptr.get s' = some p → s' ≤ s →
      (((s', p) ∈ (st.seqno2ptr.itemsUpTo s).takeWhile st.releasedAt →
          (st.discard_seqno s).2.seqno2ptr.get s' = none) ∧
       ((s', p) ∉ (st.seqno2ptr.itemsUpTo s).takeWhile st.releasedAt →
          (st.discard_seqno s).2.seqno2ptr.get s' = some p ∧
          (st.discard_seqno s).2.mem (p - bhSize) = st.mem (p - bhSize)))) ∧
    (∀ s' p, s < s' → st.seqno2ptr.get s' = some p →
      (st.seqno_release s).seqno2ptr.get s' = some p ∧
      (st.seqno_release s).mem (p - bhSize) = st.mem (p - bhSize)) := by
  have hmem : ∀ it ∈ st.seqno2ptr.itemsUpTo s,
      (st.mem (it.2 - bhSize)).seqno_g = it.1 := by
    intro it hit
    obtain ⟨s1, p1⟩ := it
    obtain ⟨_, hget⟩ := (SeqnoIndex.itemsUpTo_mem_iff _ s s1 p1).mp hit
    exact RB.seqnoConsistent_get hcons hget
  have hspec := RB.discardSeqnosGo_spec (st.seqno2ptr.itemsUpTo s) st hfz hmem
    (SeqnoIndex.itemsUpTo_pairwise _ s)
  refine ⟨hspec.1, fun s' p hget hle => ⟨fun hP => ?_, fun hnP => ⟨?_, ?_⟩⟩,
          fun s' p hlt hget => ⟨?_, ?_⟩⟩
  · show (RB.discardSeqnosGo st (st.seqno2ptr.itemsUpTo s)).2.seqno2ptr.get s' = none
    rw [hspec.2.2.1 s', if_pos ⟨(s', p), hP, rfl⟩]
  · show (RB.discardSeqnosGo st (st.seqno2ptr.itemsUpTo s)).2.seqno2ptr.get s' = some p
    have hno : ¬ ∃ it ∈ (st.seqno2ptr.itemsUpTo s).takeWhile st.releasedAt,
        it.1 = s' := by
      rintro ⟨w, hw, hw1⟩
      have hwL : w ∈ st.seqno2ptr.itemsUpTo s := (List.takeWhile_sublist _).subset hw
      obtain ⟨w1, w2⟩ := w
      obtain ⟨hwle, hwget⟩ := (SeqnoIndex.itemsUpTo_mem_iff _ s w1 w2).mp hwL
      simp only at hw1
      subst hw1
      have hw2 : w2 = p := Option.some.inj (hwget.symm.trans hget)
      subst hw2
      exact hnP hw
    rw [hspec.2.2.1 s', if_neg hno]
    exact hget
  · show (RB.discardSeqnosGo st (st.seqno2ptr.itemsUpTo s)).2.mem (p - bhSize)
        = st.mem (p - bhSize)
    have hno : ¬ ∃ it ∈ (st.seqno2ptr.itemsUpTo s).takeWhile st.releasedAt,
        it.2 - bhSize = p - bhSize := by
      rintro ⟨w, hw, hwo⟩
      have hwL : w ∈ st.seqno2ptr.itemsUpTo s := (List.takeWhile_sublist _).subset hw
      obtain ⟨w1, w2⟩ := w
      obtain ⟨hwle, hwget⟩ := (SeqnoIndex.itemsUpTo_mem_iff _ s w1 w2).mp hwL
      have hws := RB.seqnoConsistent_get hcons hwget
      have hps := RB.seqnoConsistent_get hcons hget
      simp only at hwo
      rw [hwo, hps] at hws
      subst hws
      have hw2 : w2 = p := Option.some.inj (hwget.symm.trans hget)
      subst hw2
      exact hnP hw
    rw [hspec.2.1 (p - bhSize), if_neg hno]
  · show (RB.discardSeqnosGo st (st.seqno2ptr.itemsUpTo s)).2.seqno2ptr.get s' = some p
    have hno : ¬ ∃ it ∈ (st.seqno2ptr.itemsUpTo s).takeWhile st.releasedAt,
        it.1 = s' := by
      rintro ⟨w, hw, hw1⟩
      have hwL : w ∈ st.seqno2ptr.itemsUpTo s := (List.takeWhile_sublist _).subset hw
      obtain ⟨w1, w2⟩ := w
      obtain ⟨hwle, _⟩ := (SeqnoIndex.itemsUpTo_mem_iff _ s w1 w2).mp hwL
      simp only at hw1
      omega
    rw [hspec.2.2.1 s', if_neg hno]
    exact hget
  · show (RB.discardSeqnosGo st (st.seqno2ptr.itemsUpTo s)).2.mem (p - bhSize)
        = st.mem (p - bhSize)
    have hps := RB.seqnoConsistent_get hcons hget
    have hno : ¬ ∃ it ∈ (st.seqno2ptr.itemsUpTo s).takeWhile st.releasedAt,
        it.2 - bhSize = p - bhSize := by
      rintro ⟨w, hw, hwo⟩
      have hwL : w ∈ st.seqno2ptr.itemsUpTo s := (List.takeWhile_sublist _).subset hw
      obtain ⟨w1, w2⟩ := w
      obtain ⟨hwle, hwget⟩ := (SeqnoIndex.itemsUpTo_mem_iff _ s w1 w2).mp hwL
      have hws := RB.seqnoConsistent_get hcons hwget
      simp only at hwo
      rw [hwo, hps] at hws
      omega
    rw [hspec.2.1 (p - bhSize), if_neg hno]

/-- C3 witness: on `runC3` (released seqno 1 at header 0, unreleased seqno 2
at header 96), `discard_seqno 2` erases seqno 1, stops at seqno 2 returning
false, and leaves seqno 2's entry and header untouched. -/
theorem discard_seqnos_stops_at_first_unreleased_witness :
    (runC3.freeze_purge_at_seqno = SEQNO_ILL ∧ runC3.seqnoConsistent) ∧
    (runC3.discard_seqno 2).1 = false ∧
    (runC3.discard_seqno 2).2.seqno2ptr.get 1 = none ∧
    ((runC3.discard_seqno 2).2.seqno2ptr.get 2 = some 128 ∧
      (runC3.discard_seqno 2).2.mem (128 - bhSize) = runC3.mem (128 - bhSize)) :=
  ⟨⟨by decide, by decide⟩, by decide, by decide,
    ((discard_seqnos_stops_at_first_unreleased runC3 2 (by decide) (by decide)).2.1
      2 128 (by decide) (by decide)).2 (by decide)⟩

/-! ### Preservation of the clear marker at next_ -/

/-- The clear-marker invariant (spec section 3, invariant 4, and section 6):
the header at `next_` is the all-zero marker. -/
def ClearAtNext (st : RB) : Prop := st.mem st.next = BufferHeader.clear

theorem isReleased_clear : BufferHeader.clear.isReleased = false := by decide

theorem isReleased_release (bh : BufferHeader) : bh.release.isReleased = true := by
  unfold BufferHeader.release BufferHeader.isReleased
  simp only [BUFFER_RELEASED, bne_iff_ne, ne_eq]
  intro hc
  rw [Nat.and_one_is_mod] at hc
  have h2 := Nat.mod_two_eq_zero_iff_testBit_zero.mp hc
  rw [Nat.testBit_or] at h2
  simp at h2

theorem clear_set_seqno_none :
    { BufferHeader.clear with seqno_g := SEQNO_NONE } = BufferHeader.clear := rfl

theorem off_ne_next_of_released {st : RB} (h : ClearAtNext st) {off : Nat}
    (hrel : (st.mem off).isReleased) : off ≠ st.next := by
  intro hc
  rw [hc, h] at hrel
  simp [isReleased_clear] at hrel

theorem off_ne_next_of_size_pos {st : RB} (h : ClearAtNext st) {off : Nat}
    (hsz : (st.mem off).size ≠ 0) : off ≠ st.next := by
  intro hc
  rw [hc, h] at hsz
  simp [BufferHeader.clear] at hsz

theorem RB.foundSpace_clear (st : RB) (ret size : Nat) :
    ClearAtNext (st.foundSpace ret size).2 := by
  unfold ClearAtNext RB.foundSpace
  simp [writeBH]

theorem RB.reset_clear (st : RB) : ClearAtNext st.reset := by
  unfold ClearAtNext RB.reset
  simp only
  by_cases h : 0 < st.size_cache
  · rw [if_pos h]
  · rw [if_neg h]
    simp [writeBH]

theorem RB.constructFinish_clear (st : RB) : ClearAtNext st.constructFinish := by
  unfold ClearAtNext RB.constructFinish
  simp [writeBH]

theorem RB.free_next_eq (st : RB) (off : Nat) : (st.free off).next = st.next := by
  unfold RB.free RB.discard
  by_cases h : (st.mem off).seqno_g = SEQNO_NONE
  · simp [h]
  · simp [h]

theorem RB.free_clear_of_ne {st : RB} (h : ClearAtNext st) {off : Nat}
    (hne : off ≠ st.next) : ClearAtNext (st.free off) := by
  unfold ClearAtNext RB.free RB.discard
  by_cases hq : (st.mem off).seqno_g = SEQNO_NONE
  · simp only [hq, if_pos rfl]
    show writeBH _ off _ st.next = _
    rw [writeBH_other _ _ _ _ (Ne.symm hne)]
    rw [writeBH_other _ _ _ _ (Ne.symm hne)]
    exact h
  · simp only [hq, if_neg hq]
    exact h

theorem RB.free_clear {st : RB} (h : ClearAtNext st) {off : Nat}
    (hrel : (st.mem off).isReleased) : ClearAtNext (st.free off) :=
  RB.free_clear_of_ne h (off_ne_next_of_released h hrel)

theorem RB.releaseBuffer_clear {st : RB} (h : ClearAtNext st) {off : Nat}
    (hsz : (st.mem off).size ≠ 0) : ClearAtNext (st.releaseBuffer off) := by
  have hne := off_ne_next_of_size_pos h hsz
  unfold RB.releaseBuffer
  have h1 : ClearAtNext { st with mem := writeBH st.mem off (st.mem off).release } := by
    unfold ClearAtNext
    show writeBH _ off _ st.next = _
    rw [writeBH_other _ _ _ _ (Ne.symm hne)]
    exact h
  exact RB.free_clear_of_ne h1 hne

theorem RB.seqno_assign_clear {st : RB} (h : ClearAtNext st) {p : Nat} {s : Int}
    (hsz : (st.mem (p - bhSize)).size ≠ 0) : ClearAtNext (st.seqno_assign p s) := by
  have hne := off_ne_next_of_size_pos h hsz
  unfold ClearAtNext RB.seqno_assign
  show writeBH _ (p - bhSize) _ st.next = _
  rw [writeBH_other _ _ _ _ (Ne.symm hne)]
  exact h

theorem RB.zeroRange_clear_at {m : Mem} {o : Nat} (h : m o = BufferHeader.clear)
    (a b : Nat) : RB.zeroRange m a b o = BufferHeader.clear := by
  unfold RB.zeroRange
  by_cases hin : a ≤ o ∧ o < b
  · rw [if_pos hin]
  · rw [if_neg hin]; exact h

theorem RB.estimate_space_next_eq (st : RB) (z : Bool) :
    (st.estimate_space z).next = st.next := by
  unfold RB.estimate_space
  by_cases h : st.first < st.next
  · simp [h]
  · simp [h]

theorem RB.estimate_space_clear {st : RB} (h : ClearAtNext st) (z : Bool) :
    ClearAtNext (st.estimate_space z) := by
  unfold ClearAtNext RB.estimate_space
  by_cases hc : st.first < st.next
  · simp only [if_pos hc]
    cases z with
    | false => exact h
    | true =>
      show zeroRange _ _ _ st.next = _
      exact zeroRange_clear_at (zeroRange_clear_at h _ _) _ _
  · simp only [if_neg hc]
    cases z with
    | false => exact h
    | true =>
      show zeroRange _ _ _ st.next = _
      exact zeroRange_clear_at (zeroRange_clear_at h _ _) _ _

theorem some_pair_snd {α β : Type} {a r : α} {b s : β}
    (h : some (a, b) = some (r, s)) : s = b := by
  have h' := Option.some.inj h
  rw [Prod.mk.injEq] at h'
  exact h'.2.symm

theorem RB.discardSeqnosGo_cons_released (st : RB) (s0 : Int) (p0 : Nat)
    (rest : List (Int × Nat)) (hsp : st.skip_purge s0 = false)
    (hrel : (st.mem (p0 - bhSize)).isReleased = true) :
    ∃ st2 : RB, RB.discardSeqnosGo st ((s0, p0) :: rest) = RB.discardSeqnosGo st2 rest ∧
      st2.next = st.next ∧ st2.first = st.first ∧
      ∀ o, st2.mem o
        = writeBH st.mem (p0 - bhSize) (empty_buffer (st.mem (p0 - bhSize))) o := by
  by_cases hstore : (st.mem (p0 - bhSize)).store = BUFFER_IN_RB
  · refine ⟨({ st with seqno2ptr := st.seqno2ptr.eraseAt s0 } : RB).discard (p0 - bhSize),
      ?_, rfl, rfl, fun o => rfl⟩
    simp only [RB.discardSeqnosGo, hsp, Bool.false_eq_true, if_false, hrel, if_true, hstore]
  · refine ⟨({ st with seqno2ptr := st.seqno2ptr.eraseAt s0 } : RB).storeDetach (p0 - bhSize),
      ?_, rfl, rfl, fun o => rfl⟩
    simp only [RB.discardSeqnosGo, hsp, Bool.false_eq_true, if_false, hrel, if_true, hstore]

theorem RB.discardSeqnosGo_preserves :
    ∀ (L : List (Int × Nat)) (st : RB),
      (RB.discardSeqnosGo st L).2.next = st.next ∧
      ∀ off, st.mem off = BufferHeader.clear →
        (RB.discardSeqnosGo st L).2.mem off = BufferHeader.clear
  | [], st => ⟨rfl, fun _ h => h⟩
  | (s0, p0) :: rest, st => by
    by_cases hsp : st.skip_purge s0
    · have hstep : RB.discardSeqnosGo st ((s0, p0) :: rest) = (false, st) := by
        simp only [RB.discardSeqnosGo, hsp, if_true]
      rw [hstep]
      exact ⟨rfl, fun _ h => h⟩
    · by_cases hrel : (st.mem (p0 - bhSize)).isReleased
      · obtain ⟨st2, hstep, hnext, _, hmem⟩ :=
          RB.discardSeqnosGo_cons_released st s0 p0 rest (by simpa using hsp) hrel
        have ih := RB.discardSeqnosGo_preserves rest st2
        rw [hstep]
        refine ⟨ih.1.trans hnext, fun off h => ?_⟩
        refine ih.2 off ?_
        rw [hmem off]
        have hne : off ≠ p0 - bhSize := by
          intro hc
          rw [← hc] at hrel
          rw [h] at hrel
          simp [isReleased_clear] at hrel
        rw [writeBH_other _ _ _ _ hne]
        exact h
      · have hstep : RB.discardSeqnosGo st ((s0, p0) :: rest) = (false, st) := by
          simp only [RB.discardSeqnosGo, hsp, Bool.false_eq_true, if_false, hrel]
        rw [hstep]
        exact ⟨rfl, fun _ h => h⟩

theorem RB.discard_seqno_preserves (st : RB) (s : Int) :
    (st.discard_seqno s).2.next = st.next ∧
    ∀ off, st.mem off = BufferHeader.clear →
      (st.discard_seqno s).2.mem off = BufferHeader.clear :=
  RB.discardSeqnosGo_preserves (st.seqno2ptr.itemsUpTo s) st

theorem RB.seqno_release_clear {st : RB} (h : ClearAtNext st) (s : Int) :
    ClearAtNext (st.seqno_release s) := by
  unfold ClearAtNext RB.seqno_release
  rw [(RB.discard_seqno_preserves st s).1]
  exact (RB.discard_seqno_preserves st s).2 st.next h

theorem gnbFail_clear {s : RB} (h : ClearAtNext s) :
    ClearAtNext (if s.next ≥ s.first then { s with size_trail := 0 } else s) := by
  by_cases hc : s.next ≥ s.first
  · rw [if_pos hc]; exact h
  · rw [if_neg hc]; exact h

theorem RB.gnbLoop_clear :
    ∀ (fuel : Nat) (st : RB) (ret size size_next : Nat) (r : Option Nat) (st' : RB),
      ClearAtNext st →
      RB.gnbLoop fuel st ret size size_next = some (r, st') →
      ClearAtNext st'
  | 0, st, ret, size, size_next, r, st', _, heq => by
    simp [RB.gnbLoop] at heq
  | fuel + 1, st, ret, size, size_next, r, st', h, heq => by
    simp only [RB.gnbLoop] at heq
    by_cases hlt : st.first - ret < size_next
    · rw [if_pos hlt] at heq
      by_cases hrel : (st.mem st.first).isReleased
      · rw [if_neg (by simpa using hrel)] at heq
        by_cases hdz : (st.mem st.first).seqno_g > 0 ∧
            ¬ (st.discard_seqno (st.mem st.first).seqno_g).1
        · rw [if_pos hdz] at heq
          rw [some_pair_snd heq]
          refine gnbFail_clear ?_
          unfold ClearAtNext
          rw [(RB.discard_seqno_preserves st _).1]
          exact (RB.discard_seqno_preserves st _).2 st.next h
        · rw [if_neg hdz] at heq
          have h1 : ClearAtNext
              (if (st.mem st.first).seqno_g > 0
               then (st.discard_seqno (st.mem st.first).seqno_g).2 else st) := by
            by_cases hs : (st.mem st.first).seqno_g > 0
            · rw [if_pos hs]
              unfold ClearAtNext
              rw [(RB.discard_seqno_preserves st _).1]
              exact (RB.discard_seqno_preserves st _).2 st.next h
            · rw [if_neg hs]; exact h
          set st1 := if (st.mem st.first).seqno_g > 0
              then (st.discard_seqno (st.mem st.first).seqno_g).2 else st with hst1
          set st2 : RB := { st1 with first := st1.first + (st.mem st.first).size } with hst2
          have h2 : ClearAtNext st2 := h1
          by_cases hz : (st2.mem st2.first).size = 0
          · rw [if_pos hz] at heq
            by_cases hfit : ({ st2 with first := 0 } : RB).endOff - ret ≥ size_next
            · rw [if_pos hfit] at heq
              rw [some_pair_snd heq]
              exact RB.foundSpace_clear _ ret size
            · rw [if_neg hfit] at heq
              refine RB.gnbLoop_clear fuel _ 0 size size_next r st' ?_ heq
              exact h2
          · rw [if_neg hz] at heq
            exact RB.gnbLoop_clear fuel st2 ret size size_next r st' h2 heq
      · rw [if_pos (by simpa using hrel)] at heq
        rw [some_pair_snd heq]
        exact gnbFail_clear h
    · rw [if_neg hlt] at heq
      rw [some_pair_snd heq]
      exact RB.foundSpace_clear st ret size

theorem RB.get_new_buffer_clear {st : RB} {fuel size : Nat} {r : Option Nat} {st' : RB}
    (h : ClearAtNext st) (heq : st.get_new_buffer fuel size = some (r, st')) :
    ClearAtNext st' := by
  unfold RB.get_new_buffer at heq
  by_cases h1 : st.next ≥ st.first
  · rw [if_pos h1] at heq
    by_cases h2 : st.endOff - st.next ≥ size + bhSize
    · rw [if_pos h2] at heq
      rw [some_pair_snd heq]
      exact RB.foundSpace_clear st st.next size
    · rw [if_neg h2] at heq
      refine RB.gnbLoop_clear fuel _ 0 size (size + bhSize) r st' ?_ heq
      exact h
  · rw [if_neg h1] at heq
    exact RB.gnbLoop_clear fuel st st.next size (size + bhSize) r st' h heq

theorem RB.malloc_clear {st : RB} {fuel size : Nat} {r : Option Nat} {st' : RB}
    (h : ClearAtNext st) (heq : st.malloc fuel size = some (r, st')) :
    ClearAtNext st' := by
  unfold RB.malloc at heq
  by_cases h1 : size ≤ st.size_cache / 2 ∧ size ≤ st.size_cache - st.size_used
  · rw [if_pos h1] at heq
    rcases h2 : st.get_new_buffer fuel size with _ | ⟨r0, st0⟩
    · exact absurd (h2 ▸ heq) (by simp)
    · rw [h2] at heq
      simp only [Option.map_some'] at heq
      rw [some_pair_snd heq]
      exact RB.get_new_buffer_clear h h2
  · rw [if_neg h1] at heq
    rw [some_pair_snd heq]
    exact h

theorem RB.malloc_next_eq_of_none {st : RB} {fuel size : Nat} {st' : RB}
    (heq : st.malloc fuel size = some (none, st')) (h : ¬ (size ≤ st.size_cache / 2 ∧ size ≤ st.size_cache - st.size_used)) :
    st' = st := by
  unfold RB.malloc at heq
  rw [if_neg h] at heq
  exact some_pair_snd heq

theorem RB.reallocMove_clear {st : RB} {fuel off size : Nat} {r : Option Nat} {st' : RB}
    (h : ClearAtNext st) (heq : st.reallocMove fuel off size = some (r, st'))
    (hne : off ≠ st'.next) : ClearAtNext st' := by
  unfold RB.reallocMove at heq
  rcases h2 : st.malloc fuel size with _ | ⟨r0, st0⟩
  · exact absurd (h2 ▸ heq) (by simp)
  · rw [h2] at heq
    rcases r0 with _ | pNew
    · have hst : st' = st0 := some_pair_snd heq
      rw [hst]
      exact RB.malloc_clear h h2
    · have hst : st' = st0.free off := some_pair_snd heq
      have hne2 : off ≠ st0.next := by
        rw [hst, RB.free_next_eq] at hne
        exact hne
      rw [hst]
      exact RB.free_clear_of_ne (RB.malloc_clear h h2) hne2

theorem RB.realloc_clear {st : RB} {fuel p size : Nat} {r : Option Nat} {st' : RB}
    (h : ClearAtNext st) (heq : st.realloc fuel p size = some (r, st'))
    (hsep : p - bhSize ≠ st'.next) : ClearAtNext st' := by
  simp only [RB.realloc] at heq
  by_cases h1 : size > st.size_cache / 2
  · rw [if_pos h1] at heq
    rw [some_pair_snd heq]
    exact h
  · rw [if_neg h1] at heq
    by_cases h2 : (size : Int) - ((st.mem (p - bhSize)).size : Int) ≤ 0
    · rw [if_pos h2] at heq
      rw [some_pair_snd heq]
      exact h
    · rw [if_neg h2] at heq
      by_cases h3 : (p - bhSize) + (st.mem (p - bhSize)).size = st.next
      · rw [if_pos h3] at heq
        rcases h4 : st.get_new_buffer fuel (size - (st.mem (p - bhSize)).size)
            with _ | ⟨r0, st1⟩
        · exact absurd (h4 ▸ heq) (by simp)
        · rw [h4] at heq
          simp only [] at heq
          by_cases h5 : r0 = some ((p - bhSize) + (st.mem (p - bhSize)).size)
          · rw [if_pos h5] at heq
            have hcl1 : ClearAtNext st1 := RB.get_new_buffer_clear h h4
            have hst := some_pair_snd heq
            have hne : p - bhSize ≠ st1.next := by
              rw [hst] at hsep
              exact hsep
            rw [hst]
            unfold ClearAtNext
            show writeBH _ (p - bhSize) _ st1.next = _
            rw [writeBH_other _ _ _ _ (Ne.symm hne)]
            exact hcl1
          · rw [if_neg h5] at heq
            refine RB.reallocMove_clear ?_ heq hsep
            unfold ClearAtNext
            by_cases h6 : ((p - bhSize) + (st.mem (p - bhSize)).size < st1.first)
            · rw [if_pos h6]
              show writeBH _ _ _ _ = _
              rw [writeBH_same]
            · rw [if_neg h6]
              show writeBH _ _ _ _ = _
              rw [writeBH_same]
      · rw [if_neg h3] at heq
        exact RB.reallocMove_clear h heq hsep

theorem RB.seqnoResetWalk_clear :
    ∀ (fuel : Nat) (st : RB) (off : Nat) (st' : RB), ClearAtNext st →
      RB.seqnoResetWalk fuel st off = some st' → ClearAtNext st'
  | 0, st, off, st', _, heq => by simp [RB.seqnoResetWalk] at heq
  | fuel + 1, st, off, st', h, heq => by
    simp only [RB.seqnoResetWalk] at heq
    by_cases h1 : off = st.next
    · rw [if_pos h1] at heq
      rw [← Option.some.inj heq]
      exact h
    · rw [if_neg h1] at heq
      by_cases h2 : (st.mem off).size > 0
      · rw [if_pos h2] at heq
        have hcl : ClearAtNext
            (if (st.mem off).seqno_g ≠ SEQNO_NONE then st.discard off else st) := by
          by_cases h3 : (st.mem off).seqno_g ≠ SEQNO_NONE
          · rw [if_pos h3]
            unfold ClearAtNext RB.discard
            show writeBH _ off _ st.next = _
            rw [writeBH_other _ _ _ _ (Ne.symm h1)]
            exact h
          · rw [if_neg h3]
            exact h
        exact RB.seqnoResetWalk_clear fuel _ _ st' hcl heq
      · rw [if_neg h2] at heq
        exact RB.seqnoResetWalk_clear fuel st 0 st' h heq

theorem foldl_seqno_none_clear (items : List (Int × Nat)) :
    ∀ (m : Mem) (o : Nat), m o = BufferHeader.clear →
      (items.foldl
        (fun m it =>
          writeBH m (it.2 - bhSize) { m (it.2 - bhSize) with seqno_g := SEQNO_NONE })
        m) o = BufferHeader.clear := by
  induction items with
  | nil => exact fun _ _ h => h
  | cons it rest ih =>
    intro m o h
    refine ih _ o ?_
    by_cases hc : o = it.2 - bhSize
    · subst hc
      show writeBH m (it.2 - bhSize) _ (it.2 - bhSize) = BufferHeader.clear
      rw [writeBH_same, h]
      rfl
    · show writeBH m (it.2 - bhSize) _ o = BufferHeader.clear
      rw [writeBH_other _ _ _ _ hc]
      exact h

theorem RB.seqno_reset_clear {st : RB} {fuel : Nat} {zb : Bool} {st' : RB}
    (h : ClearAtNext st) (heq : st.seqno_reset fuel zb = some st') :
    ClearAtNext st' := by
  simp only [RB.seqno_reset] at heq
  by_cases h1 : st.size_cache = st.size_free
  · rw [if_pos h1] at heq
    rw [← Option.some.inj heq]
    exact h
  · rw [if_neg h1] at heq
    rcases hget : (st.seqno2ptr.items.filter
        fun it => (st.mem (it.2 - bhSize)).store == BUFFER_IN_RB).getLast? with _ | lit
    · rw [hget] at heq
      simp only [] at heq
      rw [← Option.some.inj heq]
      exact foldl_seqno_none_clear _ st.mem st.next h
    · rw [hget] at heq
      simp only [] at heq
      rcases hseek : RB.seqnoResetSeek fuel
          ((st.seqno2ptr.items.filter
            fun it => (st.mem (it.2 - bhSize)).store == BUFFER_IN_RB).foldl
            (fun m it =>
              writeBH m (it.2 - bhSize) { m (it.2 - bhSize) with seqno_g := SEQNO_NONE })
            st.mem)
          (lit.2 - bhSize) st.next with _ | first'
      · rw [hseek] at heq
        simp at heq
      · rw [hseek] at heq
        simp only [] at heq
        have hm1 : ClearAtNext
            { st with
              mem := (st.seqno2ptr.items.filter
                fun it => (st.mem (it.2 - bhSize)).store == BUFFER_IN_RB).foldl
                (fun m it =>
                  writeBH m (it.2 - bhSize) { m (it.2 - bhSize) with seqno_g := SEQNO_NONE })
                st.mem,
              first := first' } :=
          foldl_seqno_none_clear _ st.mem st.next h
        by_cases h2 : first' = st.next
        · rw [if_pos h2] at heq
          rw [← Option.some.inj heq]
          exact RB.reset_clear _
        · rw [if_neg h2] at heq
          have hes := RB.estimate_space_clear hm1 zb
          rcases hwalk : RB.seqnoResetWalk fuel _ _ with _ | st4
          · rw [hwalk] at heq
            simp at heq
          · rw [hwalk] at heq
            simp only [] at heq
            have hcl4 : ClearAtNext st4 := RB.seqnoResetWalk_clear fuel _ _ st4 hes hwalk
            rw [← Option.some.inj heq]
            by_cases h5 : st4.next > st4.first ∧ st4.first > 0
            · rw [if_pos h5]
              unfold ClearAtNext
              show writeBH _ 0 _ st4.next = _
              rw [writeBH_other _ _ _ _ (by omega : st4.next ≠ 0)]
              exact hcl4
            · rw [if_neg h5]
              exact hcl4

/-- C6: in every state reachable through the RingBuffer public operations —
after construction (plain, with reset, or with recovery), reset, every
successful or failed malloc, every realloc, free, release, seqno
assignment, seqno release and seqno_reset — the header at position `next_`
is the all-zero clear marker. -/
theorem clear_marker_at_next (st : RB) (h : RB.Reachable st) :
    st.mem st.next = BufferHeader.clear := by
  induction h with
  | init_fresh c => rfl
  | init_plain m c => exact RB.constructFinish_clear _
  | init_recover st0 lowest fuel b st1 heq => exact RB.constructFinish_clear _
  | step_reset st hr ih => exact RB.reset_clear st
  | step_malloc st st' r fuel size hr heq ih => exact RB.malloc_clear ih heq
  | step_realloc st st' r fuel p size hr heq hsep ih => exact RB.realloc_clear ih heq hsep
  | step_free st off hr hrel ih => exact RB.free_clear ih hrel
  | step_release st off hr hsz ih => exact RB.releaseBuffer_clear ih hsz
  | step_assign st p s hr hsz ih => exact RB.seqno_assign_clear ih hsz
  | step_seqno_release st s hr ih => exact RB.seqno_release_clear ih s
  | step_seqno_reset st st' fuel zb hr heq ih => exact RB.seqno_reset_clear ih heq

/-- C6 witness: the state after `malloc(64)` on a fresh 256-byte ring is
reachable, and evaluating the invariant there shows the all-zero marker at
`next_ = 96`. -/
theorem clear_marker_at_next_witness :
    (RB.fresh 256).malloc 1 64 = some (some 32, runSt1) ∧
      runSt1.mem runSt1.next = BufferHeader.clear :=
  ⟨rfl, clear_marker_at_next runSt1
    (RB.Reachable.step_malloc (RB.fresh 256) runSt1 (some 32) 1 64
      (RB.Reachable.init_fresh 256) rfl)⟩

/-! ### C4: oversize allocations are rejected -/

/-- C4: for every requested size strictly greater than `size_cache/2`,
`RingBuffer::malloc` returns null without attempting allocation (the slot
finder is not invoked and the state is unchanged). -/
theorem malloc_rejects_oversize (fuel : Nat) (st : RB) (size : Nat)
    (h : st.size_cache / 2 < size) :
    st.malloc fuel size = some (none, st) := by
  unfold RB.malloc
  rw [if_neg]
  intro hc
  exact absurd hc.1 (Nat.not_le_of_lt h)

/-- C4 witness: with `cache_size = 1024`, `malloc(513)` returns null
(scenario S3 of the spec). -/
theorem malloc_rejects_oversize_witness :
    (RB.fresh 1024).size_cache / 2 < 513 ∧
      (RB.fresh 1024).malloc 5 513 = some (none, RB.fresh 1024) :=
  ⟨by decide, malloc_rejects_oversize 5 (RB.fresh 1024) 513 (by decide)⟩

/-! ### C10: allocation also fails on a nearly full cache -/

/-- C10: for every requested size not exceeding `size_cache/2`, if the size
is strictly greater than `size_cache - size_used` at the time of the call,
`RingBuffer::malloc` returns null without invoking the slot finder and
without modifying `first_`, `next_`, `size_free_` or `size_used_` (the
whole state is returned unchanged). -/
theorem malloc_rejects_when_cache_nearly_full (fuel : Nat) (st : RB) (size : Nat)
    (h1 : size ≤ st.size_cache / 2) (h2 : st.size_cache - st.size_used < size) :
    st.malloc fuel size = some (none, st) := by
  unfold RB.malloc
  rw [if_neg]
  intro hc
  exact absurd hc.2 (Nat.not_le_of_lt h2)

/-- C10 witness: `size_cache = 1024`, `size_used = 1000`: `malloc(100)` is
well under the half-cache limit yet fails, leaving the state unchanged. -/
theorem malloc_rejects_when_cache_nearly_full_witness :
    (100 ≤ ({ RB.fresh 1024 with size_used := 1000 } : RB).size_cache / 2 ∧
     ({ RB.fresh 1024 with size_used := 1000 } : RB).size_cache -
       ({ RB.fresh 1024 with size_used := 1000 } : RB).size_used < 100) ∧
    ({ RB.fresh 1024 with size_used := 1000 } : RB).malloc 5 100 =
      some (none, { RB.fresh 1024 with size_used := 1000 }) :=
  ⟨⟨by decide, by decide⟩,
   malloc_rejects_when_cache_nearly_full 5 _ 100 (by decide) (by decide)⟩

/-! ### C5: what `RingBuffer::free` actually does -/

/-- C5 counterexample: the claim says `free` sets the RELEASED flag on the
header. On the buffer produced by `malloc(64)` on a fresh 256-byte ring
(flags = 0), `free` leaves the flag clear: the code only asserts
`BH_is_released(bh)` (line 401) — the caller sets the flag. -/
theorem free_does_not_set_released :
    (RB.fresh 256).malloc 1 64 = some (some 32, runSt1) ∧
      ¬ ((runSt1.mem 0).isReleased) ∧
      ¬ (((runSt1.free 0).mem 0).isReleased) := by
  refine ⟨rfl, by decide, by decide⟩

/-- C5 amended: `RingBuffer::free` never modifies the flags (RELEASED is a
precondition asserted at entry, set by the caller); it decrements
`size_used_` by `bh->size`; if the buffer is unordered (`seqno_g ==
SEQNO_NONE`) it empties it (`seqno_g := SEQNO_ILL`) and discards it in
place, crediting `size_free_`; otherwise it leaves memory and `size_free_`
untouched. -/
theorem free_spec (st : RB) (off : Nat)
    (hused : (st.mem off).size ≤ st.size_used) :
    ((st.free off).mem off).flags = (st.mem off).flags ∧
    (st.free off).size_used + (st.mem off).size = st.size_used ∧
    ((st.mem off).seqno_g = SEQNO_NONE →
      ((st.free off).mem off).seqno_g = SEQNO_ILL ∧
      (st.free off).size_free = st.size_free + (st.mem off).size) ∧
    ((st.mem off).seqno_g ≠ SEQNO_NONE →
      (st.free off).mem = st.mem ∧ (st.free off).size_free = st.size_free) := by
  by_cases h : (st.mem off).seqno_g = SEQNO_NONE
  · refine ⟨?_, ?_, fun _ => ⟨?_, ?_⟩, fun hne => absurd h hne⟩
    · simp [RB.free, RB.discard, h, writeBH, empty_buffer]
    · simp [RB.free, RB.discard, h, writeBH, empty_buffer]
      omega
    · simp [RB.free, RB.discard, h, writeBH, empty_buffer]
    · simp [RB.free, RB.discard, h, writeBH, empty_buffer]
  · refine ⟨?_, ?_, fun hc => absurd hc h, fun _ => ⟨?_, ?_⟩⟩
    · simp [RB.free, h]
    · simp [RB.free, h]
      omega
    · simp [RB.free, h]
    · simp [RB.free, h]

/-- C5 amended witness: evaluate `free_spec` on the ordered buffer of
`runSt2` (seqno 1, size 64, `size_used = 64`). -/
theorem free_spec_witness :
    ((runSt2.mem 0).size ≤ runSt2.size_used) ∧
    (((runSt2.free 0).mem 0).flags = (runSt2.mem 0).flags ∧
     (runSt2.free 0).size_used + (runSt2.mem 0).size = runSt2.size_used ∧
     ((runSt2.mem 0).seqno_g = SEQNO_NONE →
       ((runSt2.free 0).mem 0).seqno_g = SEQNO_ILL ∧
       (runSt2.free 0).size_free = runSt2.size_free + (runSt2.mem 0).size) ∧
     ((runSt2.mem 0).seqno_g ≠ SEQNO_NONE →
       (runSt2.free 0).mem = runSt2.mem ∧
       (runSt2.free 0).size_free = runSt2.size_free)) :=
  ⟨by decide, free_spec runSt2 0 (by decide)⟩

/-! ### C2: the accounting equation -/

/-- C2 counterexample: the claim `size_free + size_used == size_cache` after
each operation fails on the code. Concretely: on a fresh 256-byte ring,
`malloc(64)` (balanced: 192 + 64 = 256), `assign_seqno(ptr, 1)`, then
release+`free` of the now ordered buffer leaves `size_free = 192`,
`size_used = 0`: the freed bytes are credited back to `size_free_` only
when the buffer is later discarded, so 192 + 0 ≠ 256 after `free`
completes. -/
theorem accounting_equation_fails_after_ordered_free :
    (RB.fresh 256).malloc 1 64 = some (some 32, runSt1) ∧
      runSt1.size_free + runSt1.size_used = runSt1.size_cache ∧
      ((runSt2.releaseBuffer 0).size_free + (runSt2.releaseBuffer 0).size_used
        ≠ (runSt2.releaseBuffer 0).size_cache) := by
  refine ⟨rfl, by decide, by decide⟩

/-- C2 amended: `reset` restores the balance; a `malloc` that finds space at
the end keeps it; `free` of an unordered buffer keeps it (the buffer is
discarded in place); but `free` of an ordered buffer decrements
`size_used_` without crediting `size_free_`, leaving
`size_free + size_used = size_cache - bh->size` until the buffer is
discarded (e.g. by `seqno_release`), which restores the equation. -/
theorem accounting_with_undiscarded_deficit :
    (∀ st : RB, (st.reset).size_free + (st.reset).size_used = st.size_cache) ∧
    (∀ (st : RB) (size fuel : Nat),
      st.size_free + st.size_used = st.size_cache →
      st.first ≤ st.next → size + bhSize ≤ st.endOff - st.next →
      size ≤ st.size_cache / 2 → size ≤ st.size_cache - st.size_used →
      size ≤ st.size_free →
      ∃ st' : RB, st.malloc fuel size = some (some (st.next + bhSize), st') ∧
        st'.size_free + st'.size_used = st.size_cache) ∧
    (∀ (st : RB) (off : Nat),
      st.size_free + st.size_used = st.size_cache →
      (st.mem off).seqno_g = SEQNO_NONE → (st.mem off).size ≤ st.size_used →
      (st.free off).size_free + (st.free off).size_used = st.size_cache) ∧
    (∀ (st : RB) (off : Nat),
      st.size_free + st.size_used = st.size_cache →
      (st.mem off).seqno_g ≠ SEQNO_NONE → (st.mem off).size ≤ st.size_used →
      (st.free off).size_free + (st.free off).size_used + (st.mem off).size
          = st.size_cache ∧
        ((st.free off).discard off).size_free +
            ((st.free off).discard off).size_used = st.size_cache) := by
  refine ⟨fun st => ?_, fun st size fuel hb hfn hfit h2 hu hf => ?_,
          fun st off hb hn hu => ?_, fun st off hb hn hu => ?_⟩
  · simp [RB.reset]
  · have hmal : st.malloc fuel size =
        some (some (st.next + bhSize), (st.foundSpace st.next size).2) := by
      unfold RB.malloc RB.get_new_buffer
      rw [if_pos ⟨h2, hu⟩, if_pos hfn, if_pos hfit]
      rfl
    refine ⟨(st.foundSpace st.next size).2, hmal, ?_⟩
    simp only [RB.foundSpace]
    omega
  · simp [RB.free, RB.discard, hn, writeBH, empty_buffer]
    omega
  · constructor
    · simp [RB.free, hn]
      omega
    · simp [RB.free, RB.discard, hn]
      omega

/-- C2 amended witness: evaluate the ordered-free clause on `runSt2` and the
unordered-free clause on `runSt1`. -/
theorem accounting_with_undiscarded_deficit_witness :
    (runSt2.size_free + runSt2.size_used = runSt2.size_cache ∧
     (runSt2.mem 0).seqno_g ≠ SEQNO_NONE ∧ (runSt2.mem 0).size ≤ runSt2.size_used) ∧
    ((runSt2.free 0).size_free + (runSt2.free 0).size_used + (runSt2.mem 0).size
        = runSt2.size_cache ∧
      ((runSt2.free 0).discard 0).size_free +
          ((runSt2.free 0).discard 0).size_used = runSt2.size_cache) :=
  ⟨⟨by decide, by decide, by decide⟩,
   accounting_with_undiscarded_deficit.2.2.2 runSt2 0 (by decide) (by decide) (by decide)⟩

/-! ### C7: EncMMap encrypt/decrypt -/

theorem ctrXor_length (ks : Nat → Nat) :
    ∀ (pos : Nat) (l : List Nat), (ctrXor ks pos l).length = l.length
  | _, [] => rfl
  | pos, _ :: bs => by
    simp [ctrXor, ctrXor_length ks (pos + 1) bs]

theorem ctrXor_getElem (ks : Nat → Nat) :
    ∀ (pos : Nat) (l : List Nat) (i : Nat),
      (ctrXor ks pos l)[i]? = (l[i]?).map (fun b => b ^^^ ks (pos + i))
  | _, [], i => by simp [ctrXor]
  | _, _ :: _, 0 => by simp [ctrXor]
  | pos, b :: bs, i + 1 => by
    simp only [ctrXor, List.getElem?_cons_succ]
    rw [ctrXor_getElem ks (pos + 1) bs i]
    rw [show pos + 1 + i = pos + (i + 1) from by omega]

theorem EncModel.encrypt_length (m : EncModel) (src : List Nat) (size n : Nat)
    (hlen : src.length = if m.is_last_page n then m.last_page_size else size) :
    (m.encrypt src size n).length = src.length := by
  simp only [EncModel.encrypt]
  by_cases hpso : n * m.page_size < m.encryption_start_offset
  · rw [if_pos hpso]
    simp only [List.length_append, List.length_take, ctrXor_length, List.length_drop]
    omega
  · rw [if_neg hpso]
    simp only [List.take_zero, List.nil_append, List.drop_zero, Nat.sub_zero,
      ctrXor_length, List.length_take]
    omega

theorem EncModel.decrypt_eq_encrypt (m : EncModel) (src : List Nat) (size n : Nat) :
    m.decrypt src size n = m.encrypt src size n := rfl

theorem EncModel.encrypt_getElem (m : EncModel) (src : List Nat) (size n : Nat)
    (hlen : src.length = if m.is_last_page n then m.last_page_size else size) (i : Nat) :
    (m.encrypt src size n)[i]? = (src[i]?).map fun b =>
      if n * m.page_size < m.encryption_start_offset ∧
          i < min src.length m.encryption_start_offset then b
      else b ^^^ m.ks (n * m.page_size + i) := by
  simp only [EncModel.encrypt]
  set sz := if m.is_last_page n then m.last_page_size else size with hszdef
  by_cases hpso : n * m.page_size < m.encryption_start_offset
  · rw [if_pos hpso]
    set u := min sz m.encryption_start_offset with hudef
    have hus : u ≤ src.length := by omega
    have hdt : (src.drop u).take (sz - u) = src.drop u := by
      apply List.take_of_length_le
      rw [List.length_drop]
      omega
    have hta : (src.take u).length = u := by
      rw [List.length_take]
      omega
    rw [hdt, List.getElem?_append, hta]
    by_cases hi : i < u
    · rw [if_pos hi, List.getElem?_take, if_pos hi]
      rcases hsrc : src[i]? with _ | b
      · simp
      · simp only [Option.map_some']
        rw [if_pos ⟨hpso, by omega⟩]
    · rw [if_neg hi, ctrXor_getElem, List.getElem?_drop]
      rw [show u + (i - u) = i from by omega]
      rw [show n * m.page_size + u + (i - u) = n * m.page_size + i from by omega]
      have hnc : ¬ (n * m.page_size < m.encryption_start_offset ∧
          i < min src.length m.encryption_start_offset) := by
        intro hc
        omega
      rcases hsrc : src[i]? with _ | b
      · simp
      · simp only [Option.map_some']
        rw [if_neg hnc]
  · rw [if_neg hpso]
    simp only [List.take_zero, List.nil_append, List.drop_zero, Nat.sub_zero,
      Nat.add_zero]
    rw [← hlen, List.take_length, ctrXor_getElem]
    have hnc : ¬ (n * m.page_size < m.encryption_start_offset ∧
        i < min src.length m.encryption_start_offset) := fun hc => hpso hc.1
    rcases hsrc : src[i]? with _ | b
    · simp
    · simp only [Option.map_some']
      rw [if_neg hnc]

/-- C7 counterexample: on page 1 of `encCounterModel` (file offsets 2..3,
`encryption_start_offset = 3`, page start offset `2 < 3`) the code copies
`min(size, encryption_start_offset) = 2` bytes verbatim — the whole page,
including the byte at file offset 3 — while the spec's per-byte rule
("bytes at file offsets below encryption_start_offset are copied verbatim
while the remaining bytes are transformed by the stream") would encrypt
the byte at file offset 3: the code's output and the spec's differ. -/
theorem enc_unencrypted_region_counterexample :
    encCounterModel.encrypt [0, 0] 2 1 = [0, 0] ∧
    encCounterModel.encryptSpecClaimed [0, 0] 2 1 = [0, 1] ∧
    encCounterModel.encrypt [0, 0] 2 1 ≠
      encCounterModel.encryptSpecClaimed [0, 0] 2 1 := by
  refine ⟨rfl, rfl, ?_⟩
  decide

/-- C7 (amended): when the input holds exactly the clamped byte count
(`last_page_size` on the last page, `size` otherwise), decrypt inverts
encrypt; the output length equals the input length (so on the last page
only `last_page_size` bytes are processed); and per byte: on a page whose
start offset lies below `encryption_start_offset`, the first
`min(size, encryption_start_offset)` bytes of the page are copied
verbatim — including bytes whose own file offset is at or above the start
offset — and the remaining bytes are XORed with the keystream byte at
their file offset `n*page_size + i`; on a page starting at or above the
start offset, every byte is XORed with the keystream byte at its file
offset. -/
theorem enc_roundtrip_and_per_byte (m : EncModel) (src : List Nat) (size n : Nat)
    (hlen : src.length = if m.is_last_page n then m.last_page_size else size) :
    m.decrypt (m.encrypt src size n) size n = src ∧
    (m.encrypt src size n).length = src.length ∧
    ∀ i : Nat, (m.encrypt src size n)[i]? = (src[i]?).map fun b =>
      if n * m.page_size < m.encryption_start_offset ∧
          i < min src.length m.encryption_start_offset then b
      else b ^^^ m.ks (n * m.page_size + i) := by
  refine ⟨?_, EncModel.encrypt_length m src size n hlen,
    fun i => EncModel.encrypt_getElem m src size n hlen i⟩
  have hlen2 : (m.encrypt src size n).length =
      if m.is_last_page n then m.last_page_size else size := by
    rw [EncModel.encrypt_length m src size n hlen, hlen]
  apply List.ext_getElem?
  intro i
  rw [EncModel.decrypt_eq_encrypt,
    EncModel.encrypt_getElem m _ size n hlen2 i,
    EncModel.encrypt_getElem m src size n hlen i]
  rcases hsrc : src[i]? with _ | b
  · simp
  · simp only [Option.map_some']
    rw [EncModel.encrypt_length m src size n hlen]
    by_cases hc : n * m.page_size < m.encryption_start_offset ∧
        i < min src.length m.encryption_start_offset
    · simp only [if_pos hc]
    · simp only [if_neg hc]
      rw [Nat.xor_cancel_right]

/-- C7 witness: the amended theorem evaluated on page 1 of
`encCounterModel` with bytes `[5, 6]`, its per-byte clause instantiated at
`i = 1`: the byte at file offset 3 is also copied verbatim. -/
theorem enc_roundtrip_and_per_byte_witness :
    ([5, 6] : List Nat).length =
        (if encCounterModel.is_last_page 1 then encCounterModel.last_page_size else 2) ∧
    encCounterModel.decrypt (encCounterModel.encrypt [5, 6] 2 1) 2 1 = [5, 6] ∧
    (encCounterModel.encrypt [5, 6] 2 1)[1]? = (([5, 6] : List Nat)[1]?).map (fun b =>
      if 1 * encCounterModel.page_size < encCounterModel.encryption_start_offset ∧
          1 < min ([5, 6] : List Nat).length encCounterModel.encryption_start_offset then b
      else b ^^^ encCounterModel.ks (1 * encCounterModel.page_size + 1)) :=
  ⟨by decide, (enc_roundtrip_and_per_byte encCounterModel [5, 6] 2 1 (by decide)).1,
    (enc_roundtrip_and_per_byte encCounterModel [5, 6] 2 1 (by decide)).2.2 1⟩

/-! ### C8: CRC mismatch in the encryption preamble -/

/-- C8: when encryption is enabled and the stored `enc_crc` is zero or
differs from the CRC32C recomputed over the encryption fields, and the
provider can generate the replacement Master Key, `open_preamble` ends
with `force_reset = true` (so it calls `reset()`): the stored file key
and master key id are cleared, a brand-new Master Key (fresh uuid, id 1)
is generated, a fresh file key is generated, stored encrypted under the
new Master Key and handed to the mmap, and the preamble is rewritten. -/
theorem open_preamble_crc_mismatch_resets (ctx : EncCtx) (pr : MKProvider)
    (p : PreambleEnc)
    (henc : p.enc_encrypted = true)
    (hconst : p.mk_const_uuid ≠ GU_UUID_NIL)
    (hcrc : p.enc_crc = 0 ∨
      ctx.crcEnc p.enc_version p.enc_encrypted p.mk_id p.mk_const_uuid p.mk_uuid p.fk
        ≠ p.enc_crc)
    (hgen : pr.generate_new_master_key
        (create_master_key_name p.mk_const_uuid ctx.freshMkUuid 1) ≠ "") :
    openPreambleEnc ctx pr true p = some (true, writePreamble ctx
      { encrypt_flag := true
        master_key_id := 1
        master_key_uuid := ctx.freshMkUuid
        const_mk_id := p.mk_const_uuid
        file_key := ctx.enc64 (ctx.encryptKey ctx.freshFileKey
          (pr.generate_new_master_key
            (create_master_key_name p.mk_const_uuid ctx.freshMkUuid 1)))
        mmap_key := ctx.freshFileKey
        preamble := p }) := by
  have hsw : ¬ (p.enc_encrypted ≠ true) := by rw [henc]; simp
  simp only [openPreambleEnc, if_neg hconst, if_neg hsw, reduceIte]
  have hbad : p.enc_crc = 0 ∨
      (if p.enc_crc ≠ 0 then
        ctx.crcEnc p.enc_version p.enc_encrypted p.mk_id p.mk_const_uuid p.mk_uuid p.fk
      else 0) ≠ p.enc_crc := by
    rcases hcrc with h0 | hne
    · exact Or.inl h0
    · by_cases h0 : p.enc_crc = 0
      · exact Or.inl h0
      · exact Or.inr (by rw [if_pos h0]; exact hne)
  simp only [if_pos hbad]
  rw [if_pos (Or.inl trivial), if_neg hgen]
  simp only [openPreambleFinish, reduceIte]

/-- C8 witness: the theorem evaluated on `preambleW` (stored CRC 999,
true CRC 15) with the succeeding provider: the result is
`force_reset = true` with a regenerated Master Key (id 1, fresh uuid) and
a fresh encrypted file key. -/
theorem open_preamble_crc_mismatch_resets_witness :
    (preambleW.enc_encrypted = true ∧ preambleW.mk_const_uuid ≠ GU_UUID_NIL ∧
      (preambleW.enc_crc = 0 ∨
        encCtxW.crcEnc preambleW.enc_version preambleW.enc_encrypted preambleW.mk_id
          preambleW.mk_const_uuid preambleW.mk_uuid preambleW.fk ≠ preambleW.enc_crc) ∧
      mkProviderOkW.generate_new_master_key
        (create_master_key_name preambleW.mk_const_uuid encCtxW.freshMkUuid 1) ≠ "") ∧
    openPreambleEnc encCtxW mkProviderOkW true preambleW = some (true, writePreamble encCtxW
      { encrypt_flag := true
        master_key_id := 1
        master_key_uuid := encCtxW.freshMkUuid
        const_mk_id := preambleW.mk_const_uuid
        file_key := encCtxW.enc64 (encCtxW.encryptKey encCtxW.freshFileKey
          (mkProviderOkW.generate_new_master_key
            (create_master_key_name preambleW.mk_const_uuid encCtxW.freshMkUuid 1)))
        mmap_key := encCtxW.freshFileKey
        preamble := preambleW }) :=
  ⟨⟨rfl, by decide, Or.inr (by decide), by decide⟩,
   open_preamble_crc_mismatch_resets encCtxW mkProviderOkW preambleW rfl (by decide)
     (Or.inr (by decide)) (by decide)⟩

/-! ### C9: rotate_master_key contract -/

/-- C9: `rotate_master_key` returns true with the whole state — including
`master_key_id_`, `file_key_` and the preamble — unchanged when the
current Master Key cannot be read or the next one (id `mk_id + 1`) cannot
be generated; on success it increments `master_key_id_` by one, stores
the file key re-encrypted under the new Master Key, rewrites the
preamble, and returns false. -/
theorem rotate_master_key_contract (ctx : EncCtx) (pr : MKProvider) (st : RBEnc) :
    ((pr.getKey (create_master_key_name st.const_mk_id st.master_key_uuid
        st.master_key_id) = "" ∨
      pr.generate_new_master_key (create_master_key_name st.const_mk_id
        st.master_key_uuid (st.master_key_id + 1)) = "") →
      rotate_master_key ctx pr st = (true, st)) ∧
    (∀ old_mk new_mk : String,
      pr.getKey (create_master_key_name st.const_mk_id st.master_key_uuid
        st.master_key_id) = old_mk → old_mk ≠ "" →
      pr.generate_new_master_key (create_master_key_name st.const_mk_id
        st.master_key_uuid (st.master_key_id + 1)) = new_mk → new_mk ≠ "" →
      rotate_master_key ctx pr st = (false, writePreamble ctx
        { st with
          master_key_id := st.master_key_id + 1
          file_key := ctx.enc64 (ctx.encryptKey
            (ctx.decryptKey (ctx.dec64 st.file_key) old_mk) new_mk) })) := by
  constructor
  · intro h
    simp only [rotate_master_key]
    by_cases hold : pr.getKey (create_master_key_name st.const_mk_id st.master_key_uuid
        st.master_key_id) = ""
    · rw [if_pos hold]
    · rcases h with h | h
      · exact absurd h hold
      · rw [if_neg hold, h, if_pos rfl]
  · intro old_mk new_mk hold holdne hnew hnewne
    simp only [rotate_master_key]
    rw [hold, if_neg holdne, hnew, if_neg hnewne]

/-- C9 witness: both failure paths evaluated on `rbEncW` — with the empty
keyring the current Master Key is missing, so the state is returned
unchanged — and the success path with the provider holding
`GaleraKey-u0@cid-1`: Master Key id becomes 2, the file key is
re-wrapped under the newly created `GaleraKey-u0@cid-2`, and the
preamble is rewritten. -/
theorem rotate_master_key_contract_witness :
    (mkProviderEmptyW.getKey (create_master_key_name rbEncW.const_mk_id
        rbEncW.master_key_uuid rbEncW.master_key_id) = "" ∧
      rotate_master_key encCtxW mkProviderEmptyW rbEncW = (true, rbEncW)) ∧
    ("MK1" : String) ≠ "" ∧
    ("new." ++ create_master_key_name "cid" "u0" 2) ≠ "" ∧
    rotate_master_key encCtxW mkProviderOkW rbEncW = (false, writePreamble encCtxW
      { rbEncW with
        master_key_id := rbEncW.master_key_id + 1
        file_key := encCtxW.enc64 (encCtxW.encryptKey
          (encCtxW.decryptKey (encCtxW.dec64 rbEncW.file_key) "MK1")
          ("new." ++ create_master_key_name "cid" "u0" 2)) }) :=
  ⟨⟨by decide,
    (rotate_master_key_contract encCtxW mkProviderEmptyW rbEncW).1 (Or.inl (by decide))⟩,
   by decide, by decide,
   (rotate_master_key_contract encCtxW mkProviderOkW rbEncW).2 "MK1"
     ("new." ++ create_master_key_name "cid" "u0" 2) (by decide) (by decide)
     (by decide) (by decide)⟩

/-! ### C1: recover keeps the longest gapless suffix -/

theorem RB.recoverDownScan_spec (mem : Mem) :
    ∀ (R : List (Option Nat)) (smin lowest : Int) (smin' : Int)
      (rR' : List (Option Nat)),
      RB.recoverDownScan mem R smin lowest = some (smin', rR') →
      smin' = smin - (min (smin - lowest).toNat
          ((R.takeWhile fun e => e.isSome).length) : Nat) ∧
      rR' = R.drop (min (smin - lowest).toNat
          ((R.takeWhile fun e => e.isSome).length))
  | [], smin, lowest, smin', rR', heq => by
    simp only [RB.recoverDownScan] at heq
    injection Option.some.inj heq with h1 h2
    subst h1
    subst h2
    simp
  | none :: rest, smin, lowest, smin', rR', heq => by
    simp only [RB.recoverDownScan] at heq
    injection Option.some.inj heq with h1 h2
    subst h1
    subst h2
    simp [List.takeWhile_cons]
  | some p :: rest, smin, lowest, smin', rR', heq => by
    simp only [RB.recoverDownScan] at heq
    by_cases hlow : smin > lowest
    · rw [if_pos hlow] at heq
      by_cases hm : (mem (p - bhSize)).seqno_g = smin - 1
      · rw [if_pos hm] at heq
        obtain ⟨h1, h2⟩ :=
          RB.recoverDownScan_spec mem rest (smin - 1) lowest smin' rR' heq
        have hmin : min (smin - lowest).toNat
            (((some p :: rest).takeWhile fun e => e.isSome).length) =
            min (smin - 1 - lowest).toNat
              ((rest.takeWhile fun e => e.isSome).length) + 1 := by
          rw [List.takeWhile_cons_of_pos (by simp)]
          simp only [List.length_cons]
          omega
        constructor
        · rw [hmin, h1]
          omega
        · rw [hmin, h2]
          rfl
      · rw [if_neg hm] at heq
        exact absurd heq (by simp)
    · rw [if_neg hlow] at heq
      injection Option.some.inj heq with h1 h2
      subst h1
      subst h2
      have h0 : (smin - lowest).toNat = 0 := by omega
      rw [h0]
      simp

theorem RB.emptyFold_preserve (m : Mem) (e : Option Nat) (o : Nat)
    (h : (m o).seqno_g = SEQNO_ILL) :
    ((RB.emptyFold m e) o).seqno_g = SEQNO_ILL := by
  rcases e with _ | p
  · exact h
  · simp only [RB.emptyFold]
    by_cases hc : o = p - bhSize
    · subst hc
      rw [writeBH_same]
      rfl
    · rw [writeBH_other _ _ _ _ hc]
      exact h

theorem RB.foldl_emptyFold_preserve :
    ∀ (L : List (Option Nat)) (m : Mem) (o : Nat),
      (m o).seqno_g = SEQNO_ILL →
      ((L.foldl RB.emptyFold m) o).seqno_g = SEQNO_ILL
  | [], _, _, h => h
  | e :: rest, m, o, h =>
    RB.foldl_emptyFold_preserve rest (RB.emptyFold m e) o
      (RB.emptyFold_preserve m e o h)

theorem RB.foldl_emptyFold_establish :
    ∀ (L : List (Option Nat)) (m : Mem) (p : Nat), some p ∈ L →
      ((L.foldl RB.emptyFold m) (p - bhSize)).seqno_g = SEQNO_ILL
  | [], _, _, hmem => absurd hmem (by simp)
  | e :: rest, m, p, hmem => by
    rcases List.mem_cons.mp hmem with he | hrest
    · cases he
      exact RB.foldl_emptyFold_preserve rest _ _
        (by simp only [RB.emptyFold]; rw [writeBH_same]; rfl)
    · exact RB.foldl_emptyFold_establish rest (RB.emptyFold m e) p hrest

theorem RB.discard_ill_preserve (st : RB) (off o : Nat)
    (h : (st.mem o).seqno_g = SEQNO_ILL) :
    ((st.discard off).mem o).seqno_g = SEQNO_ILL := by
  simp only [RB.discard]
  by_cases hc : o = off
  · subst hc
    simp only [writeBH_same]
    rfl
  · simp only [writeBH_other _ _ _ _ hc]
    exact h

theorem RB.free_ill_preserve (st : RB) (off o : Nat)
    (h : (st.mem o).seqno_g = SEQNO_ILL) :
    ((st.free off).mem o).seqno_g = SEQNO_ILL := by
  simp only [RB.free, RB.discard]
  by_cases hn : (st.mem off).seqno_g = SEQNO_NONE
  · rw [if_pos hn]
    by_cases hc : o = off
    · subst hc
      simp only [writeBH_same]
      rfl
    · simp only [writeBH_other _ _ _ _ hc]
      exact h
  · rw [if_neg hn]
    exact h

theorem RB.free_seqno2ptr (st : RB) (off : Nat) :
    (st.free off).seqno2ptr = st.seqno2ptr := by
  simp only [RB.free]
  by_cases hn : (st.mem off).seqno_g = SEQNO_NONE
  · rw [if_pos hn]
    rfl
  · rw [if_neg hn]

theorem RB.recoverFreeWalk_spec :
    ∀ (fuel : Nat) (st : RB) (off : Nat) (b : Bool) (st7 : RB),
      RB.recoverFreeWalk fuel st off = some (b, st7) →
      st7.seqno2ptr = st.seqno2ptr ∧ st7.next = st.next ∧
      ∀ o : Nat, (st.mem o).seqno_g = SEQNO_ILL →
        (st7.mem o).seqno_g = SEQNO_ILL
  | 0, st, off, b, st7, heq => by simp [RB.recoverFreeWalk] at heq
  | fuel + 1, st, off, b, st7, heq => by
    simp only [RB.recoverFreeWalk] at heq
    by_cases h1 : off = st.next
    · rw [if_pos h1] at heq
      injection heq with h
      injection h with hb hst
      subst hst
      exact ⟨rfl, rfl, fun o h => h⟩
    · rw [if_neg h1] at heq
      by_cases h2 : (st.mem off).size > 0
      · rw [if_pos h2] at heq
        by_cases h3 : off + (st.mem off).size > st.size_cache ∨
            (st.mem off).ctx ≠ rbCtx
        · rw [if_pos h3] at heq
          injection heq with h
          injection h with hb hst
          subst hst
          exact ⟨rfl, rfl, fun o h => h⟩
        · rw [if_neg h3] at heq
          by_cases h4 : (st.mem off).seqno_g > 0
          · rw [if_pos h4] at heq
            obtain ⟨ha, hb2, hc⟩ :=
              RB.recoverFreeWalk_spec fuel (st.free off)
                (off + (st.mem off).size) b st7 heq
            refine ⟨?_, ?_, ?_⟩
            · rw [ha, RB.free_seqno2ptr]
            · rw [hb2, RB.free_next_eq]
            · exact fun o h => hc o (RB.free_ill_preserve st off o h)
          · rw [if_neg h4] at heq
            obtain ⟨ha, hb2, hc⟩ :=
              RB.recoverFreeWalk_spec fuel _ (off + (st.mem off).size) b st7 heq
            refine ⟨?_, ?_, ?_⟩
            · rw [ha]
              rfl
            · rw [hb2]
              rfl
            · exact fun o h => hc o (RB.discard_ill_preserve st off o h)
      · rw [if_neg h2] at heq
        exact RB.recoverFreeWalk_spec fuel st 0 b st7 heq

theorem RB.estimate_space_false_mem (st : RB) :
    (st.estimate_space false).mem = st.mem := by
  simp only [RB.estimate_space]
  by_cases h : st.first < st.next
  · rw [if_pos h]
    rfl
  · rw [if_neg h]
    rfl

theorem RB.estimate_space_seqno2ptr (st : RB) (z : Bool) :
    (st.estimate_space z).seqno2ptr = st.seqno2ptr := by
  simp only [RB.estimate_space]
  by_cases h : st.first < st.next
  · rw [if_pos h]
  · rw [if_neg h]

theorem RB.ite_seqno2ptr (c : Prop) [Decidable c] (a b : RB) :
    (if c then a else b).seqno2ptr = if c then a.seqno2ptr else b.seqno2ptr := by
  by_cases hc : c
  · rw [if_pos hc, if_pos hc]
  · rw [if_neg hc, if_neg hc]

theorem RB.ite_next (c : Prop) [Decidable c] (a b : RB) :
    (if c then a else b).next = if c then a.next else b.next := by
  by_cases hc : c
  · rw [if_pos hc, if_pos hc]
  · rw [if_neg hc, if_neg hc]

theorem RB.ite_mem_apply (c : Prop) [Decidable c] (a b : RB) (o : Nat) :
    (if c then a else b).mem o = if c then a.mem o else b.mem o := by
  by_cases hc : c
  · rw [if_pos hc, if_pos hc]
  · rw [if_neg hc, if_neg hc]

theorem ite_seqno_g (c : Prop) [Decidable c] (x y : BufferHeader) :
    (if c then x else y).seqno_g = if c then x.seqno_g else y.seqno_g := by
  by_cases hc : c
  · rw [if_pos hc, if_pos hc]
  · rw [if_neg hc, if_neg hc]

theorem RB.recoverTail_spec (fuel : Nat) (st1 : RB) (st' : RB)
    (heq : RB.recoverTail fuel st1 = some (false, st')) :
    st'.seqno2ptr = st1.seqno2ptr ∧
    ∀ o : Nat, o ≠ st'.next → (st1.mem o).seqno_g = SEQNO_ILL →
      (st'.mem o).seqno_g = SEQNO_ILL := by
  simp only [RB.recoverTail] at heq
  split at heq
  · exact absurd heq (by simp)
  · rename_i first' heq1
    split at heq
    · exact absurd heq (by simp)
    · exact absurd heq (by simp)
    · rename_i lastBh heq2
      split at heq
      · exact absurd heq (by simp)
      · exact absurd heq (by simp)
      · rename_i st7 hwalk
        have hst : st' = st7 := (congrArg Prod.snd (Option.some.inj heq)).symm
        subst hst
        obtain ⟨ha, hnext, hmem⟩ :=
          RB.recoverFreeWalk_spec fuel _ _ false st' hwalk
        constructor
        · rw [ha, RB.estimate_space_seqno2ptr]
          simp only [RB.ite_seqno2ptr, ite_self]
        · intro o ho hill
          rw [RB.estimate_space_next_eq] at hnext
          simp only [RB.ite_next, ite_self] at hnext
          refine hmem o ?_
          rw [RB.estimate_space_false_mem]
          simp only [RB.ite_mem_apply, ite_self, RB.ite_next]
          rw [← hnext, writeBH_other _ _ _ _ ho]
          simp only [RB.ite_mem_apply, ite_seqno_g]
          split
          · by_cases hc : o = lastBh
            · subst hc
              rw [writeBH_same]
              exact hill
            · rw [writeBH_other _ _ _ _ hc]
              exact hill
          · exact hill

theorem SeqnoIndex.get_eq_some {ix : SeqnoIndex} {s : Int} {p : Nat}
    (h : ix.get s = some p) :
    ix.base ≤ s ∧ ix.entries[(s - ix.base).toNat]? = some (some p) := by
  unfold SeqnoIndex.get at h
  by_cases hb : ix.base ≤ s
  · rw [if_pos hb] at h
    refine ⟨hb, ?_⟩
    rcases he : ix.entries[(s - ix.base).toNat]? with _ | v
    · rw [he] at h
      simp at h
    · rw [he] at h
      simp only [Option.getD_some] at h
      rw [h]
  · rw [if_neg hb] at h
    simp at h

theorem SeqnoIndex.eraseBelow_base (ix : SeqnoIndex) :
    ix.eraseBelow ix.base = ix := by
  obtain ⟨b, l⟩ := ix
  simp [SeqnoIndex.eraseBelow]

/-- C1: whenever `recover` (after `scan`) completes without falling back
to a full reset, the seqno-to-pointer index is exactly the original index
with everything below the longest-gapless-suffix start erased: the start
is found by scanning down from `index_back()` to the first hole, not
descending below `lowest` (one above the highest collision-damaged
seqno); entries at or above it are kept unchanged, and each erased
entry's buffer is emptied (`seqno_g = SEQNO_ILL`) — stated for buffers
whose header is not the final clear-marker position `next_`. -/
theorem recover_keeps_longest_gapless_suffix (st : RB) (fuel : Nat) (lowest : Int)
    (st' : RB) (hres : st.recoverFromScan fuel lowest = some (false, st')) :
    st'.seqno2ptr = st.seqno2ptr.eraseBelow (st.seqno2ptr.gaplessSuffixStart lowest) ∧
    ∀ s : Int, ∀ p : Nat, s < st.seqno2ptr.gaplessSuffixStart lowest →
      st.seqno2ptr.get s = some p → p - bhSize ≠ st'.next →
      (st'.mem (p - bhSize)).seqno_g = SEQNO_ILL := by
  simp only [RB.recoverFromScan] at hres
  split at hres
  · exact absurd hres (by simp)
  · rename_i hnemp
    split at hres
    · exact absurd hres (by simp)
    · rename_i hlowne
      split at hres
      · exact absurd hres (by simp)
      · rename_i hback
        split at hres
        · exact absurd hres (by simp)
        · rename_i smin rR hds
          obtain ⟨hs1, hs2⟩ :=
            RB.recoverDownScan_spec st.mem _ _ _ smin rR hds
          have hgs : st.seqno2ptr.gaplessSuffixStart lowest = smin := by
            simp only [SeqnoIndex.gaplessSuffixStart]
            exact hs1.symm
          set K := min (st.seqno2ptr.index_back - lowest).toNat
            ((st.seqno2ptr.entries.reverse.drop 1).takeWhile
              fun e => e.isSome).length with hKdef
          have hn : 0 < st.seqno2ptr.entries.length := by
            rcases hc : st.seqno2ptr.entries with _ | ⟨a, t⟩
            · exact absurd (show st.seqno2ptr.isEmpty = true by
                simp [SeqnoIndex.isEmpty, hc]) hnemp
            · simp
          have hRlen : (st.seqno2ptr.entries.reverse.drop 1).length =
              st.seqno2ptr.entries.length - 1 := by simp
          have hKle : K ≤ st.seqno2ptr.entries.length - 1 := by
            refine le_trans (Nat.min_le_right _ _) ?_
            rw [← hRlen]
            exact (List.takeWhile_sublist _).length_le
          split at hres
          · rename_i hre
            obtain ⟨hidx, hmem⟩ := RB.recoverTail_spec fuel st st' hres
            have hdropnil : (st.seqno2ptr.entries.reverse.drop 1).drop K = [] := by
              have h := List.isEmpty_iff.mp hre
              rw [hs2] at h
              exact h
            have hKge : st.seqno2ptr.entries.length - 1 ≤ K := by
              have h := List.drop_eq_nil_iff.mp hdropnil
              omega
            have hbase : st.seqno2ptr.gaplessSuffixStart lowest =
                st.seqno2ptr.base := by
              rw [hgs, hs1]
              simp only [SeqnoIndex.index_back]
              omega
            constructor
            · rw [hidx, hbase, SeqnoIndex.eraseBelow_base]
            · intro s p hs hget hne
              obtain ⟨hbs, hentry⟩ := SeqnoIndex.get_eq_some hget
              rw [hbase] at hs
              exact absurd hbs (by omega)
          · rename_i hre
            obtain ⟨hidx, hmem⟩ := RB.recoverTail_spec fuel _ st' hres
            constructor
            · rw [hidx, hgs]
            · intro s p hs hget hne
              obtain ⟨hbs, hentry⟩ := SeqnoIndex.get_eq_some hget
              have harith : (s - st.seqno2ptr.base).toNat + K + 2 ≤
                  st.seqno2ptr.entries.length := by
                have h1 : s < smin := hgs ▸ hs
                rw [hs1] at h1
                simp only [SeqnoIndex.index_back] at h1
                omega
              have hrev : (st.seqno2ptr.entries.reverse)[
                  st.seqno2ptr.entries.length - 1 -
                    (s - st.seqno2ptr.base).toNat]? = some (some p) := by
                rw [List.getElem?_reverse (by omega)]
                rw [show st.seqno2ptr.entries.length - 1 -
                    (st.seqno2ptr.entries.length - 1 -
                      (s - st.seqno2ptr.base).toNat) =
                    (s - st.seqno2ptr.base).toNat from by omega]
                exact hentry
              have hdropped : (st.seqno2ptr.entries.reverse.drop (1 + K))[
                  st.seqno2ptr.entries.length - 1 -
                    (s - st.seqno2ptr.base).toNat - (1 + K)]? = some (some p) := by
                rw [List.getElem?_drop]
                rw [show 1 + K + (st.seqno2ptr.entries.length - 1 -
                    (s - st.seqno2ptr.base).toNat - (1 + K)) =
                    st.seqno2ptr.entries.length - 1 -
                      (s - st.seqno2ptr.base).toNat from by omega]
                exact hrev
              have hmemrr : some p ∈ rR := by
                rw [hs2, List.drop_drop]
                exact List.getElem?_mem hdropped
              refine hmem (p - bhSize) hne ?_
              exact RB.foldl_emptyFold_establish rR st.mem p hmemrr

set_option maxHeartbeats 1600000 in
/-- C1 witness: `recover` on `stC1` (seqnos 1, 3, 4 with a hole at 2,
`lowest = 1`) succeeds without reset; the surviving index is exactly
`eraseBelow 3` (the gapless suffix 3..4), and the erased seqno-1 buffer
at header offset 0 is emptied. -/
theorem recover_keeps_longest_gapless_suffix_witness :
    stC1.recoverFromScan 8 1 = some (false, stC1') ∧
    stC1'.seqno2ptr =
      stC1.seqno2ptr.eraseBelow (stC1.seqno2ptr.gaplessSuffixStart 1) ∧
    ((1 : Int) < stC1.seqno2ptr.gaplessSuffixStart 1 ∧
      stC1.seqno2ptr.get 1 = some 32 ∧ 32 - bhSize ≠ stC1'.next) ∧
    (stC1'.mem (32 - bhSize)).seqno_g = SEQNO_ILL :=
  ⟨rfl,
   (recover_keeps_longest_gapless_suffix stC1 8 1 stC1' rfl).1,
   ⟨by decide, by decide, by decide⟩,
   (recover_keeps_longest_gapless_suffix stC1 8 1 stC1' rfl).2 1 32
     (by decide) (by decide) (by decide)⟩

end gcache
